import Mathlib

/-!
Verification model of the uplot-render-demo worker subsystem.

Part 1 embeds `src/workers/pointGenerator.worker.ts`: the xorshift32 PRNG,
the per-line parameter computation, the curve table, the main generation
loop, and the message handler with its clamping and size guard.

Part 2 embeds the worker pool manager (`workerPool`): a deterministic
step function over an explicit pool state, driven by events (submit,
worker message, crash, timeout firing, idle sweep, capacity change,
terminate, clock tick).  Calls to `resolve`/`reject` on caller futures are
recorded in a ghost `settled` log so that settlement properties can be
stated.

JavaScript numbers are modelled exactly: 32-bit integer coercions as
explicit `% 2^32` arithmetic on `Nat`/`Int`, and the numeric data path
over `ℚ` (float rounding is not modelled; the claims under study concern
formula structure, ranges and bounds, which are unaffected).
Transcendental functions (`Math.sin`, `Math.exp`, ...) are supplied as a
parameter structure `MathPrims`; the only fact about them any claim needs
is `sin 0 = 0`, which holds for IEEE `Math.sin`.
-/

namespace UplotModel

/-! ## JavaScript 32-bit integer coercions -/

/-- `2^32`, the modulus of JavaScript's 32-bit integer coercions. -/
def U32 : ℕ := 4294967296

/-- JavaScript `ToUint32`: the unsigned 32-bit pattern of an integer. -/
def toUint32 (n : ℤ) : ℤ := n % (U32 : ℤ)

/-- JavaScript `n | 0` (`ToInt32`): wrap into `[-2^31, 2^31)`. -/
def toInt32 (n : ℤ) : ℤ :=
  if n % (U32 : ℤ) < 2 ^ 31 then n % (U32 : ℤ) else n % (U32 : ℤ) - (U32 : ℤ)

/-- The unsigned 32-bit pattern of a (possibly signed) integer, as a `ℕ`. -/
def patOf (n : ℤ) : ℕ := (n % (U32 : ℤ)).toNat

/-! ## xorshift32 PRNG (pointGenerator.worker.ts lines 25-42)

The worker keeps `rngState` as a JS 32-bit integer; we model the state by
its unsigned 32-bit pattern, on which all the JS bit operations act. -/

/-- One xorshift32 state update:
`state ^= state << 13; state ^= state >>> 17; state ^= state << 5;`
(each `<<` result truncated to 32 bits, as JS does). -/
def xorshiftStep (s : ℕ) : ℕ :=
  let s1 := s ^^^ ((s <<< 13) % U32)
  let s2 := s1 ^^^ (s1 >>> 17)
  s2 ^^^ ((s2 <<< 5) % U32)

/-- `random()`: advance the state and return `(state >>> 0) / 4294967296`. -/
def randomStep (s : ℕ) : ℕ × ℚ :=
  let s' := xorshiftStep s
  (s', (s' : ℚ) / (U32 : ℚ))

/-- `randomCentered()`: `random() - 0.5`. -/
def randomCenteredStep (s : ℕ) : ℕ × ℚ :=
  let r := randomStep s
  (r.1, r.2 - 1/2)

/-- `seedRng(seed)`: `rngState = seed | 0 || 1` (worker lines 27-29). -/
def seedRng (seed : ℤ) : ℤ :=
  let s := toInt32 seed
  if s = 0 then 1 else s

/-- The seed computed in the message handler (worker lines 264-265):
`seed = (requestId * 2654435761 + Date.now()) | 0; seedRng(seed || 1)`. -/
def initialRngState (requestId nowMs : ℤ) : ℤ :=
  let seed := toInt32 (requestId * 2654435761 + nowMs)
  seedRng (if seed = 0 then 1 else seed)

/-! ## Curve table and per-line parameters (worker lines 48-157) -/

/-- The ambient math primitives (`Math.sin`, `Math.PI`, ...) used by the
curve formulas, supplied as parameters of the model. -/
structure MathPrims where
  sin : ℚ → ℚ
  cos : ℚ → ℚ
  exp : ℚ → ℚ
  log1p : ℚ → ℚ
  tanh : ℚ → ℚ
  pi : ℚ

/-- JavaScript `a % 1` for the sawtooth curve: remainder with the sign of
the dividend (`a - trunc(a)` for `b = 1`). -/
def jsMod1 (a : ℚ) : ℚ :=
  if 0 ≤ a then a - a.floor else a - a.ceil

/-- JavaScript `Math.floor` as a rational-valued function. -/
def jsFloor (a : ℚ) : ℚ := (a.floor : ℚ)

/-- The non-random-walk entries of `curveFunctions` (worker lines 56-115);
an unknown selector falls back to `defaultCurve = curveFunctions.sin`
(worker line 118). `randomWalk` is dispatched separately in the main loop
(worker lines 194, 216-218) and never reaches this table. -/
def curveRaw (mp : MathPrims) (c : String) (t noise : ℚ) : ℚ :=
  if c = "loss" then mp.exp (-t * 3) * (0.85 + noise * 0.3)
  else if c = "sin" then mp.sin (t * mp.pi * 4) * (0.85 + noise * 0.3)
  else if c = "accuracy" then
    min 1 (0.5 + t * 0.4 + mp.sin (t * mp.pi * 2) * 0.1 + noise * 0.08)
  else if c = "linear" then t * 100 + noise * 5
  else if c = "exponential" then mp.exp (t * 4) * 10 + noise * 20
  else if c = "logarithmic" then mp.log1p (t * 10) * 2 + noise * 0.5
  else if c = "cosine" then mp.cos (t * mp.pi * 4) * (0.85 + noise * 0.3)
  else if c = "polynomial" then (t * 2 - 1) ^ 3 * 50 + noise * 5
  else if c = "step" then jsFloor (t * 5) * 2 + noise * 0.3
  else if c = "sigmoid" then 1 / (1 + mp.exp (-(t - 0.5) * 10)) + noise * 0.05
  else if c = "tanh" then mp.tanh ((t - 0.5) * 6) + noise * 0.1
  else if c = "dampedSine" then
    mp.exp (-t * 2) * mp.sin (t * mp.pi * 8) * (0.9 + |noise| * 0.2)
  else if c = "sawtooth" then jsMod1 (t * 4) * 2 - 1 + noise * 0.1
  else if c = "gaussian" then mp.exp (-((t - 0.5) * (t - 0.5)) / 0.045) + noise * 0.05
  else if c = "logistic" then
    (1 / (1 + mp.exp (-10 * (t - 0.5)))) * (0.95 + |noise| * 0.1)
  else mp.sin (t * mp.pi * 4) * (0.85 + noise * 0.3)

/-- Per-line variation parameters (worker lines 124-129). -/
structure LineParams where
  ampMul : ℚ
  freqMul : ℚ
  phaseAdd : ℚ
  offset : ℚ

/-- `computeLineParams` (worker lines 134-157). -/
def computeLineParams (mp : MathPrims) (lines : ℕ) (curveType : String) :
    List LineParams :=
  let denom : ℚ := max 1 ((lines : ℚ) - 1)
  let sep : ℚ :=
    if curveType = "accuracy" ∨ curveType = "loss" then 0.08
    else if curveType = "randomWalk" then 2.5
    else 1.0
  (List.range lines).map fun li =>
    let frac : ℚ := (li : ℚ) / denom
    let phase : ℚ := frac * mp.pi * 2
    { ampMul := 0.85 + frac * 0.3
      freqMul := 0.9 + mp.sin (phase * 0.7) * 0.12
      phaseAdd := phase * 0.15
      offset := (frac - 0.5) * sep * 10 }

/-! ## Main generation loop (worker lines 173-231) -/

/-- Loop-carried generator state: the PRNG state and the per-line
random-walk accumulator (`walkState`, worker line 197). -/
structure GenState where
  rng : ℕ
  walk : List ℚ

/-- The inner per-point loop over lines (worker lines 210-227): for each
line draw a fresh centered noise value, compute the raw curve value
(threading the walk accumulator for `randomWalk`), and apply the line's
amplitude and offset.  Returns the updated state and the row of `y`
values for this point. -/
def genPointRow (mp : MathPrims) (curveType : String) (params : List LineParams)
    (t : ℚ) (st : GenState) : GenState × List ℚ :=
  (List.range params.length).foldl
    (fun acc li =>
      let st := acc.1
      let p := params.getD li ⟨0, 0, 0, 0⟩
      let tLine := t * p.freqMul + p.phaseAdd
      let r := randomCenteredStep st.rng
      let noise := r.2
      let walkRaw :=
        if curveType = "randomWalk" then
          let w := st.walk.getD li 0 + noise * 2
          (st.walk.set li w, w)
        else (st.walk, curveRaw mp curveType tLine noise)
      let v := walkRaw.2 * p.ampMul + p.offset
      (⟨r.1, walkRaw.1⟩, acc.2 ++ [v]))
    (st, [])

/-- The outer loop over points (worker lines 206-228), producing the list
of per-point rows: `n` remaining points starting at index `i`.
`xMaxIdx = points - 1`, so `t = i / xMaxIdx`. -/
def genRows (mp : MathPrims) (curveType : String) (params : List LineParams)
    (xMaxIdx : ℕ) : ℕ → ℕ → GenState → List (List ℚ)
  | 0, _, _ => []
  | n + 1, i, st =>
    let t : ℚ := (i : ℚ) / (xMaxIdx : ℚ)
    let p := genPointRow mp curveType params t st
    p.2 :: genRows mp curveType params xMaxIdx n (i + 1) p.1

/-- Running-minimum update mirroring `if (v < yMin) yMin = v` starting
from `Infinity` (`none` = still at the infinite initial value). -/
def updMin : Option ℚ → ℚ → Option ℚ
  | none, v => some v
  | some m, v => if v < m then some v else some m

/-- Running-maximum update mirroring `if (v > yMax) yMax = v`. -/
def updMax : Option ℚ → ℚ → Option ℚ
  | none, v => some v
  | some m, v => if m < v then some v else some m

/-- Fold of the running minimum over the values in generation order. -/
def foldMinO (l : List ℚ) : Option ℚ := l.foldl updMin none

/-- Fold of the running maximum over the values in generation order. -/
def foldMaxO (l : List ℚ) : Option ℚ := l.foldl updMax none

/-- The result of `generateData` (worker lines 163-168): the `x` series,
the `y` rows (one row per point; the source's `ys[li][i]` is
`(rows.getD i []).getD li 0`), and the tracked `y` bounds (`none` models
the untouched `±Infinity` initial values). -/
structure GeneratedData where
  x : List ℚ
  rows : List (List ℚ)
  yMin : Option ℚ
  yMax : Option ℚ

/-- `generateData` (worker lines 173-231).  The numeric width only
selects the output array type in the source and does not change the
computed rational values, so it is not a parameter here. -/
def generateData (mp : MathPrims) (points lines : ℕ) (curveType : String)
    (rng0 : ℕ) : GeneratedData :=
  let params := computeLineParams mp lines curveType
  let rows := genRows mp curveType params (points - 1) points 0
    ⟨rng0, List.replicate lines 0⟩
  { x := (List.range points).map (fun i => (i : ℚ))
    rows := rows
    yMin := foldMinO rows.flatten
    yMax := foldMaxO rows.flatten }

/-! ## Message handler (worker lines 237-332) -/

/-- Configuration constants (worker lines 17-19). -/
def MAX_POINTS : ℕ := 10000000

/-- Maximum line count accepted by the worker. -/
def MAX_LINES : ℕ := 1000

/-- The 512 MiB size cap (worker line 19). -/
def MAX_BYTES : ℕ := 512 * 1024 * 1024

/-- Worker-side clamp of the point count (worker line 248):
`Math.max(10, Math.min(MAX_POINTS, numPoints | 0))`. -/
def clampPoints (n : ℤ) : ℕ := (max 10 (min (MAX_POINTS : ℤ) (toInt32 n))).toNat

/-- Worker-side clamp of the line count (worker line 249):
`Math.max(1, Math.min(MAX_LINES, numLines | 0))`. -/
def clampLines (n : ℤ) : ℕ := (max 1 (min (MAX_LINES : ℤ) (toInt32 n))).toNat

/-- A request message received by the worker (types.ts `WorkerRequest`). -/
structure WorkerRequest where
  requestId : ℤ
  numPoints : ℤ
  numLines : ℤ
  curveType : String
  dataFormat : String

/-- A response message posted by the worker (types.ts `WorkerResponse`).
For the success case, `x = none` models the `x: null` of the JSON format;
the numeric content of the series is carried as exact rationals. -/
inductive WorkerResponse where
  | success (requestId : ℤ) (length numLines : ℕ) (curveType dataFormat : String)
      (xMin xMax : ℚ) (yMin yMax : Option ℚ) (x : Option (List ℚ))
      (rows : List (List ℚ))
  | error (requestId : ℤ) (message : String)

/-- The `requestId` field of a response (both constructors carry one). -/
def WorkerResponse.reqId : WorkerResponse → ℤ
  | .success rid _ _ _ _ _ _ _ _ _ _ => rid
  | .error rid _ => rid

/-- Whether a response is a success response. -/
def WorkerResponse.isSuccess : WorkerResponse → Bool
  | .success _ _ _ _ _ _ _ _ _ _ _ => true
  | .error _ _ => false

/-- The size-limit error message thrown by the guard (worker lines
255-259; the interpolated sizes are not modelled). -/
def sizeLimitMsg : String := "Data too large"

/-- The worker's `onmessage` handler (worker lines 237-332): clamp the
inputs, run the size guard, seed the PRNG once from
`requestId * 2654435761 + Date.now()`, generate, and post exactly one
response; the `catch` wraps every thrown failure (in particular the size
guard) into an error response carrying the same `requestId`. -/
def handleMessage (mp : MathPrims) (req : WorkerRequest) (nowMs : ℤ) :
    WorkerResponse :=
  let points := clampPoints req.numPoints
  let lines := clampLines req.numLines
  let bytesPerElement : ℕ := if req.dataFormat = "float64" then 8 else 4
  let estBytes := (1 + lines) * points * bytesPerElement
  if MAX_BYTES < estBytes then
    .error req.requestId sizeLimitMsg
  else
    let rng0 := patOf (initialRngState req.requestId nowMs)
    let d := generateData mp points lines req.curveType rng0
    .success req.requestId points lines req.curveType req.dataFormat
      0 ((points : ℚ) - 1) d.yMin d.yMax
      (if req.dataFormat = "json" then none else some d.x) d.rows

/-! ## Worker pool manager (src/unnamed/part_001)

The pool is the single coordinating actor; we model it as a deterministic
step function over an explicit `PoolState`, driven by `PoolEvent`s:
request submission, a worker's response message, a worker crash signal, a
request-timeout timer firing, the periodic idle sweep, a capacity change,
`terminate()`, and clock advance.  Calls to `resolve`/`reject` on
caller-visible futures are recorded in the ghost `settled` log. -/

/-- A queued request (types.ts `QueuedRequest`, minus the two callbacks,
whose invocations are recorded in the pool's `settled` log). -/
structure QueuedReq where
  id : ℕ
  numPoints : ℤ
  numLines : ℤ
  curveType : String
  dataFormat : String
deriving DecidableEq

/-- How a caller-visible future was settled: which `resolve`/`reject`
call site fired. -/
inductive SettleKind where
  | resolved
  | workerError
  | timedOut
  | crashed
  | poolTerminated
deriving DecidableEq

/-- The pool manager's state (fields of class `WorkerPool`).  Workers are
identified by the value of `widCounter` at their creation.  `pending`
maps a request id to the worker captured by its timeout closure; presence
in `pending` also models that the request's timeout timer is armed (every
code path that deletes a pending entry also clears its timer).
`terminated` mirrors `cleanupInterval === null` after `terminate()`.
`settled` is the ghost log of `resolve`/`reject` calls. -/
structure PoolState where
  maxPoolSize : ℕ
  minWorkers : ℕ
  workers : List ℕ
  activeWorkers : List ℕ
  lastUsed : List (ℕ × ℕ)
  workerReq : List (ℕ × ℕ)
  queue : List QueuedReq
  pending : List (ℕ × ℕ)
  requestIdCounter : ℕ
  widCounter : ℕ
  nowMs : ℕ
  terminated : Bool
  settled : List (ℕ × SettleKind)
deriving DecidableEq

/-- Association-list deletion (JS `Map.delete`). -/
def eraseA (m : List (ℕ × ℕ)) (k : ℕ) : List (ℕ × ℕ) :=
  m.filter (fun p => p.1 ≠ k)

/-- Association-list update (JS `Map.set`). -/
def setA (m : List (ℕ × ℕ)) (k v : ℕ) : List (ℕ × ℕ) :=
  (k, v) :: eraseA m k

/-- Association-list lookup (JS `Map.get`). -/
def lookupA (m : List (ℕ × ℕ)) (k : ℕ) : Option ℕ :=
  (m.find? (fun p => p.1 = k)).map Prod.snd

/-- JS `Set.add`. -/
def insertW (l : List ℕ) (w : ℕ) : List ℕ := if w ∈ l then l else w :: l

/-- JS `Set.delete`. -/
def eraseW (l : List ℕ) (w : ℕ) : List ℕ := l.filter (· ≠ w)

/-- The request timeout (pool line 44, 20,000 ms). -/
def requestTimeoutMs : ℕ := 20000

/-- The idle threshold (pool line 47, 30,000 ms). -/
def idleTimeoutMs : ℕ := 30000

/-- `removeWorker` (pool lines 133-142): drop the worker from the list
and from the last-used and worker-to-request maps, then terminate it.
Note it does not touch `activeWorkers`; all call sites either pass an
idle worker or have already deleted it from the active set. -/
def removeWorker (s : PoolState) (w : ℕ) : PoolState :=
  { s with workers := s.workers.filter (· ≠ w)
           lastUsed := eraseA s.lastUsed w
           workerReq := eraseA s.workerReq w }

/-- `createWorker` (pool lines 144-249): refuse when at capacity,
otherwise append a fresh worker and stamp its last-used time. -/
def createWorker (s : PoolState) : Option ℕ × PoolState :=
  if s.maxPoolSize ≤ s.workers.length then (none, s)
  else
    let w := s.widCounter
    (some w, { s with workers := s.workers ++ [w]
                      widCounter := w + 1
                      lastUsed := setA s.lastUsed w s.nowMs })

/-- `_dispatchToWorker` (pool lines 254-288): mark the worker active,
record the worker-to-request mapping, arm the timeout, record the pending
entry, and post the request to the worker. -/
def dispatchToWorker (s : PoolState) (w : ℕ) (r : QueuedReq) : PoolState :=
  { s with activeWorkers := insertW s.activeWorkers w
           workerReq := setA s.workerReq w r.id
           pending := s.pending ++ [(r.id, w)] }

/-- `_getAvailableWorker` (pool lines 293-299): first idle worker, else
spawn one if capacity allows. -/
def getAvailableWorker (s : PoolState) : Option ℕ × PoolState :=
  match s.workers.find? (fun w => !s.activeWorkers.contains w) with
  | some w => (some w, s)
  | none =>
    if s.workers.length < s.maxPoolSize then createWorker s else (none, s)

/-- `processQueue` (pool lines 301-309). -/
def processQueue (s : PoolState) : PoolState :=
  match s.queue with
  | [] => s
  | r :: rest =>
    match getAvailableWorker s with
    | (some w, s1) => dispatchToWorker { s1 with queue := rest } w r
    | (none, s1) => s1

/-- Pool-side clamp of the point count (`generatePoints`, pool line 320):
`Math.max(10, Math.min(10000000, Math.floor(numPoints)))`. -/
def poolClampPoints (q : ℚ) : ℤ := max 10 (min 10000000 q.floor)

/-- Pool-side clamp of the line count (`generatePoints`, pool line 321). -/
def poolClampLines (q : ℚ) : ℤ := max 1 (min 1000 q.floor)

/-- `generatePoints` (pool lines 314-342): clamp, allocate the next
request id (`++this.requestIdCounter`), then dispatch immediately when a
worker is available, otherwise enqueue (the timeout starts only on
dispatch). -/
def submit (s : PoolState) (numPoints numLines : ℚ)
    (curveType dataFormat : String) : PoolState :=
  let points := poolClampPoints numPoints
  let lines := poolClampLines numLines
  let rid := s.requestIdCounter + 1
  let s0 := { s with requestIdCounter := rid }
  let r : QueuedReq := ⟨rid, points, lines, curveType, dataFormat⟩
  match getAvailableWorker s0 with
  | (some w, s1) => dispatchToWorker s1 w r
  | (none, s1) => { s1 with queue := s1.queue ++ [r] }

/-- `worker.onmessage` (pool lines 152-209): stamp last-used; if the
response's request id is still pending, remove the entry, free the
worker, clear the timer, and settle the future (resolve on success,
reject on a reported error); finally drain the queue. -/
def onMessage (s : PoolState) (w rid : ℕ) (success : Bool) : PoolState :=
  if w ∈ s.workers then
    let s1 := { s with lastUsed := setA s.lastUsed w s.nowMs }
    let s2 :=
      if rid ∈ s1.pending.map Prod.fst then
        { s1 with pending := s1.pending.filter (fun p => p.1 ≠ rid)
                  activeWorkers := eraseW s1.activeWorkers w
                  workerReq := eraseA s1.workerReq w
                  settled := s1.settled ++
                    [(rid, if success then SettleKind.resolved
                           else SettleKind.workerError)] }
      else s1
    processQueue s2
  else s

/-- `worker.onerror` (pool lines 217-244): reject the request the worker
owns (if still pending), remove the worker entirely, respawn when below
the floor, drain the queue. -/
def onCrash (s : PoolState) (w : ℕ) : PoolState :=
  if w ∈ s.workers then
    let s1 :=
      match lookupA s.workerReq w with
      | some rid =>
        if rid ∈ s.pending.map Prod.fst then
          { s with pending := s.pending.filter (fun p => p.1 ≠ rid)
                   settled := s.settled ++ [(rid, SettleKind.crashed)] }
        else s
      | none => s
    let s2 := { s1 with activeWorkers := eraseW s1.activeWorkers w
                        workerReq := eraseA s1.workerReq w
                        lastUsed := eraseA s1.lastUsed w
                        workers := s1.workers.filter (· ≠ w) }
    let s3 := if s2.workers.length < s2.minWorkers then (createWorker s2).2 else s2
    processQueue s3
  else s

/-- The timeout callback (pool lines 268-277).  The callback's guard
(`if (!pendingRequests.has(requestId)) return`) makes a late firing — for
a request already settled or cleared — a no-op, so the event is allowed
at any time; the worker it removes is the one captured by the closure,
i.e. the one recorded in the pending entry. -/
def onTimeout (s : PoolState) (rid : ℕ) : PoolState :=
  match lookupA s.pending rid with
  | none => s
  | some w =>
    let s1 := { s with pending := s.pending.filter (fun p => p.1 ≠ rid)
                       activeWorkers := eraseW s.activeWorkers w
                       workerReq := eraseA s.workerReq w
                       settled := s.settled ++ [(rid, SettleKind.timedOut)] }
    let s2 := removeWorker s1 w
    let s3 := if s2.workers.length < s2.minWorkers then (createWorker s2).2 else s2
    processQueue s3

/-- Whether a worker's idle time exceeds the threshold
(`now - lastUsed > idleTimeout`, pool lines 120-121). -/
def isExpired (s : PoolState) (w : ℕ) : Bool :=
  (lookupA s.lastUsed w).getD 0 + idleTimeoutMs < s.nowMs

/-- The collection loop of `cleanupIdleWorkers` (pool lines 115-124):
active workers are skipped by `continue`; the `break` on
`workers.length <= minWorkers` fires at the first idle worker (the length
does not change during collection), so nothing is collected when at or
below the floor; otherwise every expired idle worker is collected. -/
def sweepCollect (s : PoolState) : List ℕ :=
  if s.workers.length ≤ s.minWorkers then []
  else s.workers.filter (fun w => !s.activeWorkers.contains w && isExpired s w)

/-- The removal loop of `cleanupIdleWorkers` (pool lines 127-130): remove
the collected workers in order, stopping (`break`) once the pool is at
the floor. -/
def sweepRemove : PoolState → List ℕ → PoolState
  | s, [] => s
  | s, w :: ws =>
    if s.workers.length ≤ s.minWorkers then s
    else sweepRemove (removeWorker s w) ws

/-- `cleanupIdleWorkers` (pool lines 111-131). -/
def cleanupIdleWorkers (s : PoolState) : PoolState :=
  sweepRemove s (sweepCollect s)

/-- The shrink loop of `setMaxPoolSize` (pool lines 62-66): while above
the new cap, remove the first idle worker; stop when none is idle.  The
fuel argument (instantiated with the worker count) bounds the iteration;
each removal strictly shrinks the list, so the fuel never runs out. -/
def shrinkIdle : ℕ → PoolState → PoolState
  | 0, s => s
  | fuel + 1, s =>
    if s.maxPoolSize < s.workers.length then
      match s.workers.find? (fun w => !s.activeWorkers.contains w) with
      | some w => shrinkIdle fuel (removeWorker s w)
      | none => s
    else s

/-- `setMaxPoolSize` (pool lines 56-70). -/
def setMaxPoolSize (s : PoolState) (n : ℤ) : PoolState :=
  let next := (max 1 n).toNat
  let s1 := { s with maxPoolSize := next }
  let s2 := shrinkIdle s1.workers.length s1
  { s2 with minWorkers := min s2.minWorkers next }

/-- `terminate` (pool lines 347-367): stop the cleanup interval, reject
every queued request with the pool-shutdown error, terminate and forget
all workers, clear the timers of pending requests and drop their entries
— without rejecting their futures — and clear the remaining maps. -/
def terminatePool (s : PoolState) : PoolState :=
  { s with terminated := true
           settled := s.settled ++
             s.queue.map (fun r => (r.id, SettleKind.poolTerminated))
           queue := []
           workers := []
           activeWorkers := []
           pending := []
           workerReq := []
           lastUsed := [] }

/-- The events the pool reacts to. -/
inductive PoolEvent where
  | submit (numPoints numLines : ℚ) (curveType dataFormat : String)
  | message (w rid : ℕ) (success : Bool)
  | crash (w : ℕ)
  | timeoutFire (rid : ℕ)
  | sweep
  | setCapacity (n : ℤ)
  | terminate
  | tick (dt : ℕ)

/-- One coordinator step. -/
def step (s : PoolState) : PoolEvent → PoolState
  | .submit p l c d => submit s p l c d
  | .message w rid ok => onMessage s w rid ok
  | .crash w => onCrash s w
  | .timeoutFire rid => onTimeout s rid
  | .sweep => cleanupIdleWorkers s
  | .setCapacity n => setMaxPoolSize s n
  | .terminate => terminatePool s
  | .tick dt => { s with nowMs := s.nowMs + dt }

/-- The constructor's startup loop (`for i < minWorkers: createWorker()`,
pool lines 98-103). -/
def spawnLoop : ℕ → PoolState → PoolState
  | 0, s => s
  | k + 1, s => spawnLoop k (createWorker s).2

/-- A freshly constructed pool (pool lines 31-54): capacity
`Math.max(1, Math.floor(maxPoolSize || 1))`, floor 1, then the startup
loop spawns the floor's worth of workers. -/
def mkPool (maxPoolSize : ℤ) (t0 : ℕ) : PoolState :=
  let s0 : PoolState :=
    { maxPoolSize := (max 1 maxPoolSize).toNat
      minWorkers := 1
      workers := []
      activeWorkers := []
      lastUsed := []
      workerReq := []
      queue := []
      pending := []
      requestIdCounter := 0
      widCounter := 0
      nowMs := t0
      terminated := false
      settled := [] }
  spawnLoop s0.minWorkers s0

/-- The pool states reachable from a fresh pool by any event sequence. -/
inductive Reachable : PoolState → Prop where
  | init (m : ℤ) (t0 : ℕ) : Reachable (mkPool m t0)
  | step {s : PoolState} (e : PoolEvent) : Reachable s → Reachable (step s e)

/-- Reachability along traces whose capacity changes never shrink below
the worker count in force at the moment of the call. -/
inductive ReachableNoShrink : PoolState → Prop where
  | init (m : ℤ) (t0 : ℕ) : ReachableNoShrink (mkPool m t0)
  | step {s : PoolState} (e : PoolEvent)
      (h : ∀ n, e = PoolEvent.setCapacity n → s.workers.length ≤ (max 1 n).toNat) :
      ReachableNoShrink s → ReachableNoShrink (step s e)

/-- `getStats().currentWorkers` (pool line 376). -/
def PoolState.totalUnits (s : PoolState) : ℕ := s.workers.length

/-- `getStats().activeWorkers` (pool line 377). -/
def PoolState.activeUnits (s : PoolState) : ℕ := s.activeWorkers.length

/-- `getStats().idleWorkers` (pool line 378):
`workers.length - activeWorkers.size`. -/
def PoolState.idleUnits (s : PoolState) : ℕ :=
  s.workers.length - s.activeWorkers.length

/-- Math primitives with every function constantly `0`; they agree with
the IEEE functions at the only point the single-line claims evaluate
them (`Math.sin(0) = 0`). -/
def mp0 : MathPrims := ⟨fun _ => 0, fun _ => 0, fun _ => 0, fun _ => 0, fun _ => 0, 0⟩

/-- The pool's inductive invariant: the active set is a duplicate-free
subset of the duplicate-free worker list, worker ids are below the id
counter, the capacity is positive and at least the floor, the floor is
respected while the pool has not been terminated, and the request ids
found in the queue, the pending map and the settlement log are
duplicate-free, pairwise disjoint, and bounded by the request counter. -/
structure PoolWf (s : PoolState) : Prop where
  workers_nodup : s.workers.Nodup
  active_sub : ∀ w ∈ s.activeWorkers, w ∈ s.workers
  active_nodup : s.activeWorkers.Nodup
  workers_lt : ∀ w ∈ s.workers, w < s.widCounter
  max_pos : 1 ≤ s.maxPoolSize
  floor_le_max : s.minWorkers ≤ s.maxPoolSize
  floor : s.terminated = false → s.minWorkers ≤ s.workers.length
  pending_nodup : (s.pending.map Prod.fst).Nodup
  queue_nodup : (s.queue.map QueuedReq.id).Nodup
  settled_nodup : (s.settled.map Prod.fst).Nodup
  pq_disj : ∀ r ∈ s.pending.map Prod.fst, r ∉ s.queue.map QueuedReq.id
  ps_disj : ∀ r ∈ s.pending.map Prod.fst, r ∉ s.settled.map Prod.fst
  qs_disj : ∀ r ∈ s.queue.map QueuedReq.id, r ∉ s.settled.map Prod.fst
  pending_le : ∀ r ∈ s.pending.map Prod.fst, r ≤ s.requestIdCounter
  queue_le : ∀ r ∈ s.queue.map QueuedReq.id, r ≤ s.requestIdCounter
  settled_le : ∀ r ∈ s.settled.map Prod.fst, r ≤ s.requestIdCounter

/-- A sample pool state with one in-flight request (id 5 on worker 0) and
one queued request (id 7), used to witness the `terminate()` theorem. -/
def sampleTermState : PoolState :=
  { maxPoolSize := 4
    minWorkers := 1
    workers := [0]
    activeWorkers := [0]
    lastUsed := [(0, 0)]
    workerReq := [(0, 5)]
    queue := [⟨7, 100, 1, "sin", "float32"⟩]
    pending := [(5, 0)]
    requestIdCounter := 7
    widCounter := 1
    nowMs := 0
    terminated := false
    settled := [] }

/-- A fresh pool of capacity 4 after one submission: the warm worker is
busy with request 1, which is pending. -/
def c1Pre : PoolState := step (mkPool 4 0) (.submit 100 1 "sin" "float32")

/-- A fresh pool of capacity 4, two submissions (both dispatched, so two
active workers), then a capacity shrink to 1: no worker is idle, so the
shrink loop removes nothing and the pool is left with 2 workers against a
capacity of 1. -/
def c3Over : PoolState :=
  step (step (step (mkPool 4 0) (.submit 100 1 "linear" "float32"))
    (.submit 100 1 "sin" "float32")) (.setCapacity 1)

/-- A pool observed at time 40000 with two workers: worker 0 idle and
last used at time 0 — past the 30-second idle threshold — and worker 1
active on request 3.  Used to witness the idle-sweep theorem. -/
def c9State : PoolState :=
  { maxPoolSize := 4
    minWorkers := 1
    workers := [0, 1]
    activeWorkers := [1]
    lastUsed := [(0, 0), (1, 35000)]
    workerReq := [(1, 3)]
    queue := []
    pending := [(3, 1)]
    requestIdCounter := 3
    widCounter := 2
    nowMs := 40000
    terminated := false
    settled := [] }

/-! # Theorems -/

/-- C4: for every request message received by the generation worker,
exactly one response is posted — `handleMessage` is a total function
returning a single response — and that response's `requestId` equals the
request's, on both the success and the error (caught-failure) branch. -/
theorem c4_one_response_matching_id (mp : MathPrims) (req : WorkerRequest)
    (nowMs : ℤ) : (handleMessage mp req nowMs).reqId = req.requestId := by
  unfold handleMessage
  by_cases h : MAX_BYTES < (1 + clampLines req.numLines) * clampPoints req.numPoints *
      (if req.dataFormat = "float64" then 8 else 4)
  · rw [if_pos h]
    rfl
  · rw [if_neg h]
    rfl

/-- C5: with clamped counts, if
`estimatedBytes = (1 + lineCount) * pointCount * bytesPerElement` exceeds
the 512 MiB cap the handler returns the size-limit error response — built
without invoking `generateData`, so no output is allocated and no
generation is performed — and otherwise generation proceeds and a success
response is posted. -/
theorem c5_size_guard (mp : MathPrims) (req : WorkerRequest) (nowMs : ℤ) :
    (MAX_BYTES < (1 + clampLines req.numLines) * clampPoints req.numPoints *
        (if req.dataFormat = "float64" then 8 else 4) →
      handleMessage mp req nowMs = .error req.requestId sizeLimitMsg) ∧
    ((1 + clampLines req.numLines) * clampPoints req.numPoints *
        (if req.dataFormat = "float64" then 8 else 4) ≤ MAX_BYTES →
      (handleMessage mp req nowMs).isSuccess = true) := by
  constructor <;> intro h <;> unfold handleMessage
  · rw [if_pos h]
  · rw [if_neg (by omega)]
    rfl

/-- Witness for C5: a concrete oversized request (1000 lines × 10^7
points × 8 bytes) is refused with the size-limit error, and a concrete
small request (1 line × 100 points × 4 bytes) succeeds. -/
theorem c5_size_guard_witness :
    handleMessage mp0 ⟨1, 10000000, 1000, "sin", "float64"⟩ 0 =
      .error 1 sizeLimitMsg ∧
    (handleMessage mp0 ⟨1, 100, 1, "sin", "float32"⟩ 0).isSuccess = true :=
  ⟨(c5_size_guard mp0 ⟨1, 10000000, 1000, "sin", "float64"⟩ 0).1 (by decide),
   (c5_size_guard mp0 ⟨1, 100, 1, "sin", "float32"⟩ 0).2 (by decide)⟩

/-- C6: the pool clamps `pointCount` into `[10, 10_000_000]` and
`lineCount` into `[1, 1000]` before sending (`generatePoints`), the
worker re-clamps into the same ranges on receipt — so clamping happens
before generation — a `pointCount` of `10_000_001` is clamped to
`10_000_000`, the worker-side clamp is the identity on pool-clamped
values, and a request with `pointCount = 10_000_001` produces a success
response (no error from the count itself). -/
theorem c6_clamping :
    (∀ q : ℚ, 10 ≤ poolClampPoints q ∧ poolClampPoints q ≤ 10000000) ∧
    (∀ q : ℚ, 1 ≤ poolClampLines q ∧ poolClampLines q ≤ 1000) ∧
    poolClampPoints 10000001 = 10000000 ∧
    (∀ n : ℤ, 10 ≤ clampPoints n ∧ clampPoints n ≤ MAX_POINTS) ∧
    (∀ n : ℤ, 1 ≤ clampLines n ∧ clampLines n ≤ MAX_LINES) ∧
    (∀ q : ℚ, clampPoints ((poolClampPoints q : ℤ)) = (poolClampPoints q).toNat ∧
      clampLines ((poolClampLines q : ℤ)) = (poolClampLines q).toNat) ∧
    (∀ (mp : MathPrims) (nowMs : ℤ),
      (handleMessage mp ⟨1, 10000001, 1, "linear", "float32"⟩ nowMs).isSuccess
        = true) := by
  refine ⟨fun q => ?_, fun q => ?_, by decide, fun n => ?_, fun n => ?_,
    fun q => ⟨?_, ?_⟩, fun mp nowMs => ?_⟩
  · unfold poolClampPoints; omega
  · unfold poolClampLines; omega
  · unfold clampPoints toInt32 MAX_POINTS
    split_ifs <;> omega
  · unfold clampLines toInt32 MAX_LINES
    split_ifs <;> omega
  · unfold clampPoints toInt32 poolClampPoints MAX_POINTS U32
    push_cast
    split_ifs <;> omega
  · unfold clampLines toInt32 poolClampLines MAX_LINES U32
    push_cast
    split_ifs <;> omega
  · unfold handleMessage
    rw [if_neg (by decide)]
    rfl

/-- C7: the PRNG state is seeded per request as
`(requestId * 2654435761 + currentTimeMillis) mod 2^32` forced non-zero
(the source's `| 0` coercions and double `|| 1` guard collapse to exactly
this on the unsigned bit pattern); each draw applies
`s ^= s<<13; s ^= s>>>17; s ^= s<<5` (32-bit truncated) and returns the
unsigned state divided by `2^32`, a value in `[0, 1)` with the state
staying below `2^32`; the centered draw returns that value minus `0.5`,
a value in `[-0.5, 0.5)`. -/
theorem c7_prng_spec (rid t : ℤ) (s : ℕ) (hs : s < U32) :
    patOf (initialRngState rid t) =
      (if (rid * 2654435761 + t) % (U32 : ℤ) = 0 then 1
       else ((rid * 2654435761 + t) % (U32 : ℤ)).toNat) ∧
    patOf (initialRngState rid t) ≠ 0 ∧
    randomStep s = (xorshiftStep s, ((xorshiftStep s : ℚ)) / (U32 : ℚ)) ∧
    xorshiftStep s < U32 ∧
    0 ≤ (randomStep s).2 ∧ (randomStep s).2 < 1 ∧
    (randomCenteredStep s).1 = xorshiftStep s ∧
    (randomCenteredStep s).2 = (randomStep s).2 - 1/2 ∧
    -(1/2 : ℚ) ≤ (randomCenteredStep s).2 ∧ (randomCenteredStep s).2 < 1/2 := by
  have hseed : patOf (initialRngState rid t) =
      (if (rid * 2654435761 + t) % (U32 : ℤ) = 0 then 1
       else ((rid * 2654435761 + t) % (U32 : ℤ)).toNat) := by
    unfold initialRngState seedRng toInt32 patOf U32
    generalize rid * 2654435761 + t = a
    push_cast
    split_ifs <;> omega
  have hlt : xorshiftStep s < U32 := by
    unfold xorshiftStep
    have h32 : U32 = 2 ^ 32 := by norm_num [U32]
    rw [h32] at hs ⊢
    have h1 : s ^^^ (s <<< 13 % 2 ^ 32) < 2 ^ 32 :=
      Nat.xor_lt_two_pow hs (Nat.mod_lt _ (by positivity))
    have h2 : (s ^^^ (s <<< 13 % 2 ^ 32)) ^^^
        ((s ^^^ (s <<< 13 % 2 ^ 32)) >>> 17) < 2 ^ 32 := by
      apply Nat.xor_lt_two_pow h1
      calc (s ^^^ (s <<< 13 % 2 ^ 32)) >>> 17
          ≤ s ^^^ (s <<< 13 % 2 ^ 32) := by
            rw [Nat.shiftRight_eq_div_pow]; exact Nat.div_le_self _ _
        _ < 2 ^ 32 := h1
    exact Nat.xor_lt_two_pow h2 (Nat.mod_lt _ (by positivity))
  have hv0 : (0 : ℚ) ≤ (randomStep s).2 := by
    unfold randomStep
    positivity
  have hv1 : (randomStep s).2 < 1 := by
    unfold randomStep
    rw [div_lt_one (by norm_num [U32])]
    exact_mod_cast hlt
  refine ⟨hseed, ?_, rfl, hlt, hv0, hv1, rfl, rfl, ?_, ?_⟩
  · rw [hseed]
    generalize (rid * 2654435761 + t) = a
    split_ifs with h
    · omega
    · have h0 : 0 ≤ a % (U32 : ℤ) := by unfold U32; push_cast; omega
      omega
  · show -(1/2 : ℚ) ≤ (randomStep s).2 - 1/2
    linarith
  · show (randomStep s).2 - 1/2 < 1/2
    linarith

/-- A Boolean predicate that rejects exactly one value removes at most
one entry of a duplicate-free list. -/
theorem length_filter_pred_ge (w : ℕ) (p : ℕ → Bool) (hp : ∀ x, p x = false ↔ x = w) :
    ∀ l : List ℕ, l.Nodup → l.length - 1 ≤ (l.filter p).length := by
  intro l h
  induction l with
  | nil => simp
  | cons a l ih =>
    rw [List.filter_cons]
    cases hpa : p a with
    | true =>
      rw [if_pos rfl]
      have := ih (List.nodup_cons.1 h).2
      simp only [List.length_cons]
      omega
    | false =>
      rw [if_neg (by simp)]
      have haw : a = w := (hp a).1 hpa
      subst haw
      have hfe : l.filter p = l := by
        apply List.filter_eq_self.2
        intro b hb
        cases hpb : p b with
        | true => rfl
        | false =>
          exact absurd (((hp b).1 hpb) ▸ hb) (List.nodup_cons.1 h).1
      simp [hfe]

/-- Filtering away one value from a duplicate-free list removes at most
one entry. -/
theorem length_filter_ne_ge (l : List ℕ) (w : ℕ) (h : l.Nodup) :
    l.length - 1 ≤ (l.filter (· ≠ w)).length :=
  length_filter_pred_ge w _ (fun x => by simp) l h

/-- `createWorker` at capacity refuses and leaves the state unchanged. -/
theorem createWorker_at_cap {s : PoolState} (hcap : s.maxPoolSize ≤ s.workers.length) :
    createWorker s = (none, s) := by
  unfold createWorker
  rw [if_pos hcap]

/-- `createWorker` below capacity appends one fresh worker. -/
theorem createWorker_grow {s : PoolState} (hcap : ¬ s.maxPoolSize ≤ s.workers.length) :
    createWorker s = (some s.widCounter,
      { s with workers := s.workers ++ [s.widCounter]
               widCounter := s.widCounter + 1
               lastUsed := setA s.lastUsed s.widCounter s.nowMs }) := by
  unfold createWorker
  rw [if_neg hcap]

/-- `createWorker` leaves every field but the worker list, the id
counter and the last-used map unchanged. -/
theorem createWorker_frame (s : PoolState) :
    (createWorker s).2.maxPoolSize = s.maxPoolSize ∧
    (createWorker s).2.minWorkers = s.minWorkers ∧
    (createWorker s).2.activeWorkers = s.activeWorkers ∧
    (createWorker s).2.queue = s.queue ∧
    (createWorker s).2.pending = s.pending ∧
    (createWorker s).2.settled = s.settled ∧
    (createWorker s).2.requestIdCounter = s.requestIdCounter ∧
    (createWorker s).2.terminated = s.terminated ∧
    (createWorker s).2.workerReq = s.workerReq := by
  by_cases hcap : s.maxPoolSize ≤ s.workers.length
  · rw [createWorker_at_cap hcap]
    exact ⟨rfl, rfl, rfl, rfl, rfl, rfl, rfl, rfl, rfl⟩
  · rw [createWorker_grow hcap]
    exact ⟨rfl, rfl, rfl, rfl, rfl, rfl, rfl, rfl, rfl⟩

/-- `createWorker` can only keep or grow the worker list by one, the
latter only below capacity. -/
theorem createWorker_len (s : PoolState) :
    s.workers.length ≤ (createWorker s).2.workers.length ∧
    (createWorker s).2.workers.length ≤ max s.workers.length s.maxPoolSize := by
  by_cases hcap : s.maxPoolSize ≤ s.workers.length
  · rw [createWorker_at_cap hcap]
    exact ⟨le_refl _, le_max_left _ _⟩
  · rw [createWorker_grow hcap]
    dsimp only
    rw [List.length_append, List.length_singleton]
    omega

/-- `createWorker` preserves the pool invariant. -/
theorem createWorker_wf {s : PoolState} (h : PoolWf s) :
    PoolWf (createWorker s).2 := by
  obtain ⟨h1, h2, h3, h4, h5, h6, h7, h8, h9, h10, h11, h12, h13, h14, h15, h16⟩ := h
  by_cases hcap : s.maxPoolSize ≤ s.workers.length
  · rw [createWorker_at_cap hcap]
    exact ⟨h1, h2, h3, h4, h5, h6, h7, h8, h9, h10, h11, h12, h13, h14, h15, h16⟩
  · rw [createWorker_grow hcap]
    refine ⟨?_, ?_, h3, ?_, h5, h6, ?_, h8, h9, h10, h11, h12, h13, h14, h15, h16⟩
    · dsimp only
      rw [List.nodup_append]
      refine ⟨h1, List.nodup_singleton _, ?_⟩
      intro x hx hx2
      simp only [List.mem_singleton] at hx2
      subst hx2
      have := h4 _ hx
      omega
    · intro x hx
      dsimp only at hx ⊢
      exact List.mem_append_left _ (h2 x hx)
    · intro x hx
      dsimp only at hx ⊢
      rcases List.mem_append.1 hx with hx | hx
      · have := h4 x hx
        omega
      · simp only [List.mem_singleton] at hx
        omega
    · intro ht
      have := h7 ht
      dsimp only
      rw [List.length_append, List.length_singleton]
      omega

/-- `_getAvailableWorker` when an idle worker exists. -/
theorem getAvailableWorker_found {s : PoolState} {w : ℕ}
    (hf : s.workers.find? (fun w => !s.activeWorkers.contains w) = some w) :
    getAvailableWorker s = (some w, s) := by
  unfold getAvailableWorker
  rw [hf]

/-- `_getAvailableWorker` with no idle worker and no spare capacity. -/
theorem getAvailableWorker_full {s : PoolState}
    (hf : s.workers.find? (fun w => !s.activeWorkers.contains w) = none)
    (hlen : ¬ s.workers.length < s.maxPoolSize) :
    getAvailableWorker s = (none, s) := by
  unfold getAvailableWorker
  rw [hf, if_neg hlen]

/-- `_getAvailableWorker` with no idle worker but spare capacity spawns. -/
theorem getAvailableWorker_spawn {s : PoolState}
    (hf : s.workers.find? (fun w => !s.activeWorkers.contains w) = none)
    (hlen : s.workers.length < s.maxPoolSize) :
    getAvailableWorker s = createWorker s := by
  unfold getAvailableWorker
  rw [hf, if_pos hlen]

/-- `_getAvailableWorker` preserves the invariant and the scheduling
state, can only grow the worker list and never past the capacity, and
returns a member of the (possibly grown) worker list. -/
theorem getAvailableWorker_spec (s : PoolState) (h : PoolWf s) :
    PoolWf (getAvailableWorker s).2 ∧
    (getAvailableWorker s).2.queue = s.queue ∧
    (getAvailableWorker s).2.pending = s.pending ∧
    (getAvailableWorker s).2.settled = s.settled ∧
    (getAvailableWorker s).2.requestIdCounter = s.requestIdCounter ∧
    (getAvailableWorker s).2.maxPoolSize = s.maxPoolSize ∧
    (getAvailableWorker s).2.minWorkers = s.minWorkers ∧
    (getAvailableWorker s).2.terminated = s.terminated ∧
    (getAvailableWorker s).2.activeWorkers = s.activeWorkers ∧
    s.workers.length ≤ (getAvailableWorker s).2.workers.length ∧
    (getAvailableWorker s).2.workers.length ≤ max s.workers.length s.maxPoolSize ∧
    (∀ w, (getAvailableWorker s).1 = some w →
      w ∈ (getAvailableWorker s).2.workers) := by
  cases hf : s.workers.find? (fun w => !s.activeWorkers.contains w) with
  | some w =>
    rw [getAvailableWorker_found hf]
    refine ⟨h, rfl, rfl, rfl, rfl, rfl, rfl, rfl, rfl, le_refl _, le_max_left _ _, ?_⟩
    intro w' hw'
    cases hw'
    exact List.mem_of_find?_eq_some hf
  | none =>
    by_cases hlen : s.workers.length < s.maxPoolSize
    · rw [getAvailableWorker_spawn hf hlen]
      have hcf := createWorker_frame s
      have hcl := createWorker_len s
      refine ⟨createWorker_wf h, hcf.2.2.2.1, hcf.2.2.2.2.1, hcf.2.2.2.2.2.1,
        hcf.2.2.2.2.2.2.1, hcf.1, hcf.2.1, hcf.2.2.2.2.2.2.2.1, hcf.2.2.1,
        hcl.1, hcl.2, ?_⟩
      intro w' hw'
      rw [createWorker_grow (by omega)] at hw' ⊢
      cases hw'
      dsimp only
      simp
    · rw [getAvailableWorker_full hf hlen]
      exact ⟨h, rfl, rfl, rfl, rfl, rfl, rfl, rfl, rfl, le_refl _, le_max_left _ _,
        fun w' hw' => by cases hw'⟩

/-- `_dispatchToWorker` establishes the invariant when the target worker
exists and the dispatched request id is fresh with respect to the
pending, queue and settlement ids. -/
theorem dispatchToWorker_wf {s : PoolState} (h : PoolWf s) (w : ℕ) (r : QueuedReq)
    (hw : w ∈ s.workers) (hp : r.id ∉ s.pending.map Prod.fst)
    (hq : r.id ∉ s.queue.map QueuedReq.id) (hs : r.id ∉ s.settled.map Prod.fst)
    (hle : r.id ≤ s.requestIdCounter) : PoolWf (dispatchToWorker s w r) := by
  obtain ⟨h1, h2, h3, h4, h5, h6, h7, h8, h9, h10, h11, h12, h13, h14, h15, h16⟩ := h
  unfold dispatchToWorker
  refine ⟨h1, ?_, ?_, h4, h5, h6, h7, ?_, h9, h10, ?_, ?_, h13, ?_, h15, h16⟩
  · intro w' hw'
    dsimp only at hw' ⊢
    unfold insertW at hw'
    by_cases hmem : w ∈ s.activeWorkers
    · rw [if_pos hmem] at hw'
      exact h2 w' hw'
    · rw [if_neg hmem] at hw'
      rcases List.mem_cons.1 hw' with rfl | hw'
      · exact hw
      · exact h2 w' hw'
  · dsimp only
    unfold insertW
    by_cases hmem : w ∈ s.activeWorkers
    · rw [if_pos hmem]
      exact h3
    · rw [if_neg hmem]
      exact List.nodup_cons.2 ⟨hmem, h3⟩
  · dsimp only
    rw [List.map_append, List.nodup_append]
    refine ⟨h8, List.nodup_singleton _, ?_⟩
    intro x hx hx2
    simp only [List.map_cons, List.map_nil, List.mem_singleton] at hx2
    subst hx2
    exact hp hx
  · intro x hx
    dsimp only at hx ⊢
    rw [List.map_append] at hx
    rcases List.mem_append.1 hx with hx | hx
    · exact h11 x hx
    · simp only [List.map_cons, List.map_nil, List.mem_singleton] at hx
      subst hx
      exact hq
  · intro x hx
    dsimp only at hx ⊢
    rw [List.map_append] at hx
    rcases List.mem_append.1 hx with hx | hx
    · exact h12 x hx
    · simp only [List.map_cons, List.map_nil, List.mem_singleton] at hx
      subst hx
      exact hs
  · intro x hx
    dsimp only at hx ⊢
    rw [List.map_append] at hx
    rcases List.mem_append.1 hx with hx | hx
    · exact h14 x hx
    · simp only [List.map_cons, List.map_nil, List.mem_singleton] at hx
      subst hx
      exact hle

/-- `_dispatchToWorker` changes only the active set, the
worker-to-request map and the pending map. -/
theorem dispatchToWorker_frame (s : PoolState) (w : ℕ) (r : QueuedReq) :
    (dispatchToWorker s w r).workers = s.workers ∧
    (dispatchToWorker s w r).queue = s.queue ∧
    (dispatchToWorker s w r).settled = s.settled ∧
    (dispatchToWorker s w r).requestIdCounter = s.requestIdCounter ∧
    (dispatchToWorker s w r).maxPoolSize = s.maxPoolSize ∧
    (dispatchToWorker s w r).minWorkers = s.minWorkers ∧
    (dispatchToWorker s w r).terminated = s.terminated :=
  ⟨rfl, rfl, rfl, rfl, rfl, rfl, rfl⟩

/-- Popping the queue's head preserves the invariant. -/
theorem PoolWf.queue_tail {s : PoolState} (h : PoolWf s) {r : QueuedReq}
    {rest : List QueuedReq} (hq : s.queue = r :: rest) :
    PoolWf { s with queue := rest } := by
  obtain ⟨h1, h2, h3, h4, h5, h6, h7, h8, h9, h10, h11, h12, h13, h14, h15, h16⟩ := h
  rw [hq] at h9 h11 h13 h15
  refine ⟨h1, h2, h3, h4, h5, h6, h7, h8, ?_, h10, ?_, h12, ?_, h14, ?_, h16⟩
  · exact (List.nodup_cons.1 h9).2
  · intro x hx hx2
    exact h11 x hx (List.mem_cons_of_mem _ hx2)
  · intro x hx
    exact h13 x (List.mem_cons_of_mem _ hx)
  · intro x hx
    exact h15 x (List.mem_cons_of_mem _ hx)

/-- Allocating the next request id preserves the invariant. -/
theorem PoolWf.bump {s : PoolState} (h : PoolWf s) :
    PoolWf { s with requestIdCounter := s.requestIdCounter + 1 } := by
  obtain ⟨h1, h2, h3, h4, h5, h6, h7, h8, h9, h10, h11, h12, h13, h14, h15, h16⟩ := h
  refine ⟨h1, h2, h3, h4, h5, h6, h7, h8, h9, h10, h11, h12, h13, ?_, ?_, ?_⟩
  · intro x hx
    have := h14 x hx
    dsimp only
    omega
  · intro x hx
    have := h15 x hx
    dsimp only
    omega
  · intro x hx
    have := h16 x hx
    dsimp only
    omega

/-- `processQueue` preserves the invariant, never settles a future, and
changes the worker count only upward and never past the capacity. -/
theorem processQueue_spec (s : PoolState) (h : PoolWf s) :
    PoolWf (processQueue s) ∧
    (processQueue s).settled = s.settled ∧
    (processQueue s).requestIdCounter = s.requestIdCounter ∧
    (processQueue s).maxPoolSize = s.maxPoolSize ∧
    (processQueue s).minWorkers = s.minWorkers ∧
    (processQueue s).terminated = s.terminated ∧
    s.workers.length ≤ (processQueue s).workers.length ∧
    (processQueue s).workers.length ≤ max s.workers.length s.maxPoolSize := by
  unfold processQueue
  cases hq : s.queue with
  | nil => exact ⟨h, rfl, rfl, rfl, rfl, rfl, le_refl _, le_max_left _ _⟩
  | cons r rest =>
    have hg := getAvailableWorker_spec s h
    rcases hga : getAvailableWorker s with ⟨ow, s1⟩
    rw [hga] at hg
    dsimp only at hg
    obtain ⟨hgw, hgq, hgp, hgs, hgc, hgm, hgf, hgt, hga2, hgl1, hgl2, hgmem⟩ := hg
    cases ow with
    | some w =>
      have hs2 : PoolWf { s1 with queue := rest } :=
        PoolWf.queue_tail hgw (by rw [hgq, hq])
      have hrid : r.id ∈ s.queue.map QueuedReq.id := by
        rw [hq]
        exact List.mem_cons_self _ _
      have hp : r.id ∉ s1.pending.map Prod.fst := by
        rw [hgp]
        intro hmem
        exact h.pq_disj r.id hmem hrid
      have hq2 : r.id ∉ rest.map QueuedReq.id := by
        have := h.queue_nodup
        rw [hq] at this
        simpa using (List.nodup_cons.1 this).1
      have hs : r.id ∉ s1.settled.map Prod.fst := by
        rw [hgs]
        exact h.qs_disj r.id hrid
      have hle : r.id ≤ s1.requestIdCounter := by
        rw [hgc]
        exact h.queue_le r.id hrid
      have hw : w ∈ s1.workers := hgmem w rfl
      have hwf := dispatchToWorker_wf (s := { s1 with queue := rest }) hs2 w r
        hw hp hq2 hs hle
      exact ⟨hwf, hgs, hgc, hgm, hgf, hgt, hgl1, hgl2⟩
    | none =>
      exact ⟨hgw, hgs, hgc, hgm, hgf, hgt, hgl1, hgl2⟩

/-- `generatePoints` (submit) unfolded into its two dispatch-or-enqueue
branches. -/
theorem submit_eq (s : PoolState) (p l : ℚ) (c d : String) :
    submit s p l c d =
      (match getAvailableWorker { s with requestIdCounter := s.requestIdCounter + 1 } with
       | (some w, s1) => dispatchToWorker s1 w
           ⟨s.requestIdCounter + 1, poolClampPoints p, poolClampLines l, c, d⟩
       | (none, s1) => { s1 with queue := s1.queue ++
           [⟨s.requestIdCounter + 1, poolClampPoints p, poolClampLines l, c, d⟩] }) := rfl

/-- `generatePoints` (submit) preserves the invariant, never settles a
future, and changes the worker count only upward and never past the
capacity. -/
theorem submit_spec (s : PoolState) (h : PoolWf s) (p l : ℚ) (c d : String) :
    PoolWf (submit s p l c d) ∧
    (submit s p l c d).settled = s.settled ∧
    (submit s p l c d).maxPoolSize = s.maxPoolSize ∧
    (submit s p l c d).minWorkers = s.minWorkers ∧
    (submit s p l c d).terminated = s.terminated ∧
    s.workers.length ≤ (submit s p l c d).workers.length ∧
    (submit s p l c d).workers.length ≤ max s.workers.length s.maxPoolSize := by
  rw [submit_eq]
  have h0 : PoolWf { s with requestIdCounter := s.requestIdCounter + 1 } :=
    PoolWf.bump h
  have hg := getAvailableWorker_spec { s with requestIdCounter := s.requestIdCounter + 1 } h0
  rcases hga : getAvailableWorker { s with requestIdCounter := s.requestIdCounter + 1 }
    with ⟨ow, s1⟩
  rw [hga] at hg
  obtain ⟨hgw, hgq, hgp, hgs, hgc, hgm, hgf, hgt, hga2, hgl1, hgl2, hgmem⟩ := hg
  replace hgq : s1.queue = s.queue := hgq
  replace hgp : s1.pending = s.pending := hgp
  replace hgs : s1.settled = s.settled := hgs
  replace hgc : s1.requestIdCounter = s.requestIdCounter + 1 := hgc
  replace hgm : s1.maxPoolSize = s.maxPoolSize := hgm
  replace hgf : s1.minWorkers = s.minWorkers := hgf
  replace hgt : s1.terminated = s.terminated := hgt
  replace hgl1 : s.workers.length ≤ s1.workers.length := hgl1
  replace hgl2 : s1.workers.length ≤ max s.workers.length s.maxPoolSize := hgl2
  replace hgmem : ∀ w, ow = some w → w ∈ s1.workers := hgmem
  cases ow with
  | some w =>
    have hp : (s.requestIdCounter + 1) ∉ s1.pending.map Prod.fst := by
      rw [hgp]
      intro hmem
      have := h.pending_le _ hmem
      omega
    have hq2 : (s.requestIdCounter + 1) ∉ s1.queue.map QueuedReq.id := by
      rw [hgq]
      intro hmem
      have := h.queue_le _ hmem
      omega
    have hs : (s.requestIdCounter + 1) ∉ s1.settled.map Prod.fst := by
      rw [hgs]
      intro hmem
      have := h.settled_le _ hmem
      omega
    have hle : (s.requestIdCounter + 1) ≤ s1.requestIdCounter := by
      rw [hgc]
    have hw : w ∈ s1.workers := hgmem w rfl
    have hwf := dispatchToWorker_wf (s := s1) hgw w
      ⟨s.requestIdCounter + 1, poolClampPoints p, poolClampLines l, c, d⟩
      hw hp hq2 hs hle
    exact ⟨hwf, hgs, hgm, hgf, hgt, hgl1, hgl2⟩
  | none =>
    obtain ⟨g1, g2, g3, g4, g5, g6, g7, g8, g9, g10, g11, g12, g13, g14, g15, g16⟩ := hgw
    refine ⟨⟨g1, g2, g3, g4, g5, g6, g7, g8, ?_, g10, ?_, g12, ?_, ?_, ?_, g16⟩,
      hgs, hgm, hgf, hgt, hgl1, hgl2⟩
    · dsimp only
      rw [List.map_append, List.nodup_append]
      refine ⟨g9, List.nodup_singleton _, ?_⟩
      intro x hx hx2
      simp only [List.map_cons, List.map_nil, List.mem_singleton] at hx2
      subst hx2
      have := h.queue_le _ (by rw [← hgq]; exact hx)
      omega
    · intro x hx
      dsimp only at hx ⊢
      rw [List.map_append]
      intro hmem
      rcases List.mem_append.1 hmem with hmem | hmem
      · exact g11 x hx hmem
      · simp only [List.map_cons, List.map_nil, List.mem_singleton] at hmem
        subst hmem
        have := h.pending_le _ (by rw [← hgp]; exact hx)
        omega
    · intro x hx
      dsimp only at hx
      rw [List.map_append] at hx
      rcases List.mem_append.1 hx with hx | hx
      · exact g13 x hx
      · simp only [List.map_cons, List.map_nil, List.mem_singleton] at hx
        subst hx
        intro hmem
        have := h.settled_le _ (by rw [← hgs]; exact hmem)
        omega
    · intro x hx
      dsimp only at hx ⊢
      exact g14 x hx
    · intro x hx
      dsimp only at hx ⊢
      rw [List.map_append] at hx
      rcases List.mem_append.1 hx with hx | hx
      · exact g15 x hx
      · simp only [List.map_cons, List.map_nil, List.mem_singleton] at hx
        subst hx
        rw [hgc]

/-- Ids of a pending map with one id filtered out: membership implies
membership in the original map and distinctness from the filtered id. -/
theorem pending_ids_filter {l : List (ℕ × ℕ)} {rid x : ℕ}
    (hx : x ∈ (l.filter (fun p => p.1 ≠ rid)).map Prod.fst) :
    x ∈ l.map Prod.fst ∧ x ≠ rid := by
  obtain ⟨⟨a, b⟩, hmem, rfl⟩ := List.mem_map.1 hx
  have h2 := List.mem_filter.1 hmem
  refine ⟨List.mem_map.2 ⟨(a, b), h2.1, rfl⟩, ?_⟩
  simpa using h2.2

/-- Filtering the pending map preserves id distinctness. -/
theorem pending_ids_filter_nodup {l : List (ℕ × ℕ)}
    (h : (l.map Prod.fst).Nodup) (rid : ℕ) :
    ((l.filter (fun p => p.1 ≠ rid)).map Prod.fst).Nodup :=
  h.sublist ((List.filter_sublist l).map Prod.fst)

/-- A successful association-list lookup means the key is present. -/
theorem lookupA_some_mem {m : List (ℕ × ℕ)} {k v : ℕ}
    (h : lookupA m k = some v) : k ∈ m.map Prod.fst := by
  unfold lookupA at h
  cases hf : m.find? (fun p => p.1 = k) with
  | none =>
    rw [hf] at h
    cases h
  | some pr =>
    have hmem := List.mem_of_find?_eq_some hf
    have hpk := List.find?_some hf
    have : pr.1 = k := by simpa using hpk
    exact this ▸ List.mem_map.2 ⟨pr, hmem, rfl⟩

/-- Settling a pending request — removing its entry, logging the
`resolve`/`reject` call, freeing the worker — preserves the invariant
(the worker list itself is untouched). -/
theorem settleState_wf {s : PoolState} (h : PoolWf s) {rid : ℕ} (k : SettleKind)
    (hrid : rid ∈ s.pending.map Prod.fst) (w : ℕ) (lu : List (ℕ × ℕ)) :
    PoolWf { s with lastUsed := lu
                    pending := s.pending.filter (fun p => p.1 ≠ rid)
                    activeWorkers := eraseW s.activeWorkers w
                    workerReq := eraseA s.workerReq w
                    settled := s.settled ++ [(rid, k)] } := by
  obtain ⟨h1, h2, h3, h4, h5, h6, h7, h8, h9, h10, h11, h12, h13, h14, h15, h16⟩ := h
  refine ⟨h1, ?_, h3.filter _, h4, h5, h6, h7, ?_, h9, ?_, ?_, ?_, ?_, ?_, h15, ?_⟩
  · intro x hx
    exact h2 x (List.mem_of_mem_filter hx)
  · exact pending_ids_filter_nodup h8 rid
  · dsimp only
    rw [List.map_append, List.nodup_append]
    refine ⟨h10, List.nodup_singleton _, ?_⟩
    intro x hx hx2
    simp only [List.map_cons, List.map_nil, List.mem_singleton] at hx2
    subst hx2
    exact h12 _ hrid hx
  · intro x hx
    exact h11 x (pending_ids_filter hx).1
  · intro x hx
    dsimp only at hx ⊢
    obtain ⟨hx1, hx2⟩ := pending_ids_filter hx
    rw [List.map_append]
    intro hmem
    rcases List.mem_append.1 hmem with hmem | hmem
    · exact h12 x hx1 hmem
    · simp only [List.map_cons, List.map_nil, List.mem_singleton] at hmem
      exact hx2 hmem
  · intro x hx
    dsimp only at hx ⊢
    rw [List.map_append]
    intro hmem
    rcases List.mem_append.1 hmem with hmem | hmem
    · exact h13 x hx hmem
    · simp only [List.map_cons, List.map_nil, List.mem_singleton] at hmem
      rw [hmem] at hx
      exact h11 rid hrid hx
  · intro x hx
    exact h14 x (pending_ids_filter hx).1
  · intro x hx
    dsimp only at hx ⊢
    rw [List.map_append] at hx
    rcases List.mem_append.1 hx with hx | hx
    · exact h16 x hx
    · simp only [List.map_cons, List.map_nil, List.mem_singleton] at hx
      rw [hx]
      exact h14 rid hrid

/-- After settling a request and removing the crashed or unresponsive
worker, every invariant except the floor holds (floor is restored by the
subsequent respawn; the `terminated := true` marker makes the floor field
vacuous here). -/
theorem removal_core {s : PoolState} (h : PoolWf s) {rid : ℕ} (k : SettleKind)
    (hrid : rid ∈ s.pending.map Prod.fst) (w : ℕ) (wr lu : List (ℕ × ℕ)) :
    PoolWf { s with pending := s.pending.filter (fun p => p.1 ≠ rid)
                    settled := s.settled ++ [(rid, k)]
                    activeWorkers := eraseW s.activeWorkers w
                    workerReq := wr
                    lastUsed := lu
                    workers := s.workers.filter (· ≠ w)
                    terminated := true } := by
  have hs := settleState_wf h k hrid w lu
  obtain ⟨h1, h2, h3, h4, h5, h6, _, h8, h9, h10, h11, h12, h13, h14, h15, h16⟩ := hs
  refine ⟨h1.filter _, ?_, h3, ?_, h5, h6, ?_, h8, h9, h10, h11, h12, h13, h14, h15, h16⟩
  · intro x hx
    dsimp only at hx ⊢
    have hx2 := List.mem_filter.1 hx
    refine List.mem_filter.2 ⟨h2 x hx, hx2.2⟩
  · intro x hx
    exact h4 x (List.mem_of_mem_filter hx)
  · intro ht
    dsimp only at ht
    cases ht

/-- Removing a worker that owns no live pending request: same as
`removal_core` but with no settlement. -/
theorem removal_core_plain {s : PoolState} (h : PoolWf s) (w : ℕ)
    (wr lu : List (ℕ × ℕ)) :
    PoolWf { s with activeWorkers := eraseW s.activeWorkers w
                    workerReq := wr
                    lastUsed := lu
                    workers := s.workers.filter (· ≠ w)
                    terminated := true } := by
  obtain ⟨h1, h2, h3, h4, h5, h6, h7, h8, h9, h10, h11, h12, h13, h14, h15, h16⟩ := h
  refine ⟨h1.filter _, ?_, h3.filter _, ?_, h5, h6, ?_, h8, h9, h10, h11, h12, h13,
    h14, h15, h16⟩
  · intro x hx
    dsimp only at hx ⊢
    have hx2 := List.mem_filter.1 hx
    exact List.mem_filter.2 ⟨h2 x hx2.1, hx2.2⟩
  · intro x hx
    exact h4 x (List.mem_of_mem_filter hx)
  · intro ht
    dsimp only at ht
    cases ht

/-- The common “respawn if below floor, then drain the queue” tail of the
crash and timeout handlers: given every invariant except possibly the
floor, and the floor off by at most one, the result satisfies the full
invariant, settles nothing, and keeps the worker count at or below
`max t.workers.length t.maxPoolSize`. -/
theorem respawnDrain_spec (t : PoolState)
    (hcore : PoolWf { t with terminated := true })
    (hfl : t.terminated = false → t.minWorkers ≤ t.workers.length + 1) :
    PoolWf (processQueue
      (if t.workers.length < t.minWorkers then (createWorker t).2 else t)) ∧
    (processQueue
      (if t.workers.length < t.minWorkers then (createWorker t).2 else t)).settled
        = t.settled ∧
    (processQueue
      (if t.workers.length < t.minWorkers then (createWorker t).2 else t)).maxPoolSize
        = t.maxPoolSize ∧
    (processQueue
      (if t.workers.length < t.minWorkers then (createWorker t).2 else t)).minWorkers
        = t.minWorkers ∧
    (processQueue
      (if t.workers.length < t.minWorkers then (createWorker t).2 else t)).terminated
        = t.terminated ∧
    (processQueue
      (if t.workers.length < t.minWorkers then (createWorker t).2 else t)).workers.length
        ≤ max t.workers.length t.maxPoolSize := by
  obtain ⟨h1, h2, h3, h4, h5, h6, _, h8, h9, h10, h11, h12, h13, h14, h15, h16⟩ := hcore
  replace h1 : t.workers.Nodup := h1
  replace h2 : ∀ w ∈ t.activeWorkers, w ∈ t.workers := h2
  replace h3 : t.activeWorkers.Nodup := h3
  replace h4 : ∀ w ∈ t.workers, w < t.widCounter := h4
  replace h5 : 1 ≤ t.maxPoolSize := h5
  replace h6 : t.minWorkers ≤ t.maxPoolSize := h6
  replace h8 : (t.pending.map Prod.fst).Nodup := h8
  replace h9 : (t.queue.map QueuedReq.id).Nodup := h9
  replace h10 : (t.settled.map Prod.fst).Nodup := h10
  replace h11 : ∀ r ∈ t.pending.map Prod.fst, r ∉ t.queue.map QueuedReq.id := h11
  replace h12 : ∀ r ∈ t.pending.map Prod.fst, r ∉ t.settled.map Prod.fst := h12
  replace h13 : ∀ r ∈ t.queue.map QueuedReq.id, r ∉ t.settled.map Prod.fst := h13
  replace h14 : ∀ r ∈ t.pending.map Prod.fst, r ≤ t.requestIdCounter := h14
  replace h15 : ∀ r ∈ t.queue.map QueuedReq.id, r ≤ t.requestIdCounter := h15
  replace h16 : ∀ r ∈ t.settled.map Prod.fst, r ≤ t.requestIdCounter := h16
  by_cases hln : t.workers.length < t.minWorkers
  · rw [if_pos hln]
    have hgrow : ¬ t.maxPoolSize ≤ t.workers.length := by omega
    have hwf2 : PoolWf (createWorker t).2 := by
      rw [createWorker_grow hgrow]
      refine ⟨?_, ?_, h3, ?_, h5, h6, ?_, h8, h9, h10, h11, h12, h13, h14, h15, h16⟩
      · dsimp only
        rw [List.nodup_append]
        refine ⟨h1, List.nodup_singleton _, ?_⟩
        intro x hx hx2
        simp only [List.mem_singleton] at hx2
        subst hx2
        have := h4 _ hx
        omega
      · intro x hx
        dsimp only at hx ⊢
        exact List.mem_append_left _ (h2 x hx)
      · intro x hx
        dsimp only at hx ⊢
        rcases List.mem_append.1 hx with hx | hx
        · have := h4 x hx
          omega
        · simp only [List.mem_singleton] at hx
          omega
      · intro ht
        dsimp only at ht ⊢
        have := hfl ht
        rw [List.length_append, List.length_singleton]
        omega
    obtain ⟨p1, p2, p3, p4, p5, p6, p7, p8⟩ := processQueue_spec _ hwf2
    have hcf := createWorker_frame t
    have hcl := createWorker_len t
    refine ⟨p1, p2.trans hcf.2.2.2.2.2.1, p4.trans hcf.1, p5.trans hcf.2.1,
      p6.trans hcf.2.2.2.2.2.2.2.1, ?_⟩
    rw [hcf.1] at p8
    omega
  · rw [if_neg hln]
    have hwf2 : PoolWf t :=
      ⟨h1, h2, h3, h4, h5, h6, fun _ => by omega, h8, h9, h10, h11, h12, h13,
        h14, h15, h16⟩
    obtain ⟨p1, p2, p3, p4, p5, p6, p7, p8⟩ := processQueue_spec _ hwf2
    exact ⟨p1, p2, p4, p5, p6, p8⟩

/-- Updating only the bookkeeping maps preserves the invariant. -/
theorem PoolWf.maps {s : PoolState} (h : PoolWf s) (lu wr : List (ℕ × ℕ)) :
    PoolWf { s with lastUsed := lu, workerReq := wr } := by
  obtain ⟨h1, h2, h3, h4, h5, h6, h7, h8, h9, h10, h11, h12, h13, h14, h15, h16⟩ := h
  exact ⟨h1, h2, h3, h4, h5, h6, h7, h8, h9, h10, h11, h12, h13, h14, h15, h16⟩

/-- `worker.onmessage` from a live worker whose request id is still
pending: stamp, settle, free the worker, drain. -/
theorem onMessage_eq_settle {s : PoolState} {w rid : ℕ} {ok : Bool}
    (hw : w ∈ s.workers) (hrid : rid ∈ s.pending.map Prod.fst) :
    onMessage s w rid ok =
      processQueue
        { s with lastUsed := setA s.lastUsed w s.nowMs
                 pending := s.pending.filter (fun p => p.1 ≠ rid)
                 activeWorkers := eraseW s.activeWorkers w
                 workerReq := eraseA s.workerReq w
                 settled := s.settled ++
                   [(rid, if ok then SettleKind.resolved
                          else SettleKind.workerError)] } := by
  unfold onMessage
  rw [if_pos hw]
  dsimp only
  rw [if_pos hrid]

/-- `worker.onmessage` from a live worker with an unknown (already
settled) request id: only stamp and drain. -/
theorem onMessage_eq_skip {s : PoolState} {w rid : ℕ} {ok : Bool}
    (hw : w ∈ s.workers) (hrid : rid ∉ s.pending.map Prod.fst) :
    onMessage s w rid ok =
      processQueue { s with lastUsed := setA s.lastUsed w s.nowMs } := by
  unfold onMessage
  rw [if_pos hw]
  dsimp only
  rw [if_neg hrid]

/-- A message from a worker no longer in the pool is not delivered. -/
theorem onMessage_eq_out {s : PoolState} {w rid : ℕ} {ok : Bool}
    (hw : w ∉ s.workers) : onMessage s w rid ok = s := by
  unfold onMessage
  rw [if_neg hw]

/-- `worker.onmessage` preserves the invariant, the capacity, the floor
and the shutdown flag, and keeps the worker count at or below
`max s.workers.length s.maxPoolSize`. -/
theorem onMessage_spec (s : PoolState) (h : PoolWf s) (w rid : ℕ) (ok : Bool) :
    PoolWf (onMessage s w rid ok) ∧
    (onMessage s w rid ok).maxPoolSize = s.maxPoolSize ∧
    (onMessage s w rid ok).minWorkers = s.minWorkers ∧
    (onMessage s w rid ok).terminated = s.terminated ∧
    (onMessage s w rid ok).workers.length ≤ max s.workers.length s.maxPoolSize := by
  by_cases hw : w ∈ s.workers
  · by_cases hrid : rid ∈ s.pending.map Prod.fst
    · rw [onMessage_eq_settle hw hrid]
      have hwf2 := settleState_wf h
        (if ok then SettleKind.resolved else SettleKind.workerError) hrid w
        (setA s.lastUsed w s.nowMs)
      obtain ⟨p1, p2, p3, p4, p5, p6, p7, p8⟩ := processQueue_spec _ hwf2
      exact ⟨p1, p4, p5, p6, p8⟩
    · rw [onMessage_eq_skip hw hrid]
      have hwf2 := PoolWf.maps h (setA s.lastUsed w s.nowMs) s.workerReq
      obtain ⟨p1, p2, p3, p4, p5, p6, p7, p8⟩ := processQueue_spec _ hwf2
      exact ⟨p1, p4, p5, p6, p8⟩
  · rw [onMessage_eq_out hw]
    exact ⟨h, rfl, rfl, rfl, le_max_left _ _⟩

/-- `worker.onerror` from a live worker owning a still-pending request:
settle, remove the worker, respawn if below floor, drain. -/
theorem onCrash_eq_settle {s : PoolState} {w rid : ℕ}
    (hw : w ∈ s.workers) (hlk : lookupA s.workerReq w = some rid)
    (hrid : rid ∈ s.pending.map Prod.fst) :
    onCrash s w =
      (let t := { s with pending := s.pending.filter (fun p => p.1 ≠ rid)
                         settled := s.settled ++ [(rid, SettleKind.crashed)]
                         activeWorkers := eraseW s.activeWorkers w
                         workerReq := eraseA s.workerReq w
                         lastUsed := eraseA s.lastUsed w
                         workers := s.workers.filter (· ≠ w) }
       processQueue
         (if t.workers.length < t.minWorkers then (createWorker t).2 else t)) := by
  unfold onCrash
  rw [if_pos hw, hlk]
  dsimp only
  rw [if_pos hrid]

/-- `worker.onerror` from a live worker owning no recorded request. -/
theorem onCrash_eq_none {s : PoolState} {w : ℕ}
    (hw : w ∈ s.workers) (hlk : lookupA s.workerReq w = none) :
    onCrash s w =
      (let t := { s with activeWorkers := eraseW s.activeWorkers w
                         workerReq := eraseA s.workerReq w
                         lastUsed := eraseA s.lastUsed w
                         workers := s.workers.filter (· ≠ w) }
       processQueue
         (if t.workers.length < t.minWorkers then (createWorker t).2 else t)) := by
  unfold onCrash
  rw [if_pos hw, hlk]

/-- `worker.onerror` from a live worker whose recorded request has
already been settled. -/
theorem onCrash_eq_stale {s : PoolState} {w rid : ℕ}
    (hw : w ∈ s.workers) (hlk : lookupA s.workerReq w = some rid)
    (hrid : rid ∉ s.pending.map Prod.fst) :
    onCrash s w =
      (let t := { s with activeWorkers := eraseW s.activeWorkers w
                         workerReq := eraseA s.workerReq w
                         lastUsed := eraseA s.lastUsed w
                         workers := s.workers.filter (· ≠ w) }
       processQueue
         (if t.workers.length < t.minWorkers then (createWorker t).2 else t)) := by
  unfold onCrash
  rw [if_pos hw, hlk]
  dsimp only
  rw [if_neg hrid]

/-- A crash signal from a worker no longer in the pool does nothing. -/
theorem onCrash_eq_out {s : PoolState} {w : ℕ} (hw : w ∉ s.workers) :
    onCrash s w = s := by
  unfold onCrash
  rw [if_neg hw]

/-- `worker.onerror` preserves the invariant, the capacity, the floor and
the shutdown flag, and keeps the worker count at or below
`max s.workers.length s.maxPoolSize`. -/
theorem onCrash_spec (s : PoolState) (h : PoolWf s) (w : ℕ) :
    PoolWf (onCrash s w) ∧
    (onCrash s w).maxPoolSize = s.maxPoolSize ∧
    (onCrash s w).minWorkers = s.minWorkers ∧
    (onCrash s w).terminated = s.terminated ∧
    (onCrash s w).workers.length ≤ max s.workers.length s.maxPoolSize := by
  have hfl0 : s.terminated = false → s.minWorkers ≤ s.workers.length - 1 + 1 := by
    intro ht
    have h1 := h.floor ht
    have h2 := length_filter_ne_ge s.workers w h.workers_nodup
    omega
  have hlen0 : (s.workers.filter (· ≠ w)).length ≤ s.workers.length :=
    List.length_filter_le _ _
  by_cases hw : w ∈ s.workers
  · cases hlk : lookupA s.workerReq w with
    | some rid =>
      by_cases hrid : rid ∈ s.pending.map Prod.fst
      · rw [onCrash_eq_settle hw hlk hrid]
        have hcore := removal_core h SettleKind.crashed hrid w
          (eraseA s.workerReq w) (eraseA s.lastUsed w)
        have hfil := length_filter_ne_ge s.workers w h.workers_nodup
        obtain ⟨r1, r2, r3, r4, r5, r6⟩ := respawnDrain_spec
          { s with pending := s.pending.filter (fun p => p.1 ≠ rid)
                   settled := s.settled ++ [(rid, SettleKind.crashed)]
                   activeWorkers := eraseW s.activeWorkers w
                   workerReq := eraseA s.workerReq w
                   lastUsed := eraseA s.lastUsed w
                   workers := s.workers.filter (· ≠ w) } hcore (by
          intro ht
          have := h.floor ht
          show s.minWorkers ≤ (s.workers.filter (· ≠ w)).length + 1
          omega)
        refine ⟨r1, r3, r4, r5, ?_⟩
        refine le_trans r6 ?_
        have : (s.workers.filter (· ≠ w)).length ≤ s.workers.length :=
          List.length_filter_le _ _
        simp only [max_le_iff]
        constructor
        · omega
        · omega
      · rw [onCrash_eq_stale hw hlk hrid]
        have hcore := removal_core_plain h w (eraseA s.workerReq w)
          (eraseA s.lastUsed w)
        have hfil := length_filter_ne_ge s.workers w h.workers_nodup
        obtain ⟨r1, r2, r3, r4, r5, r6⟩ := respawnDrain_spec
          { s with activeWorkers := eraseW s.activeWorkers w
                   workerReq := eraseA s.workerReq w
                   lastUsed := eraseA s.lastUsed w
                   workers := s.workers.filter (· ≠ w) } hcore (by
          intro ht
          have := h.floor ht
          show s.minWorkers ≤ (s.workers.filter (· ≠ w)).length + 1
          omega)
        refine ⟨r1, r3, r4, r5, ?_⟩
        refine le_trans r6 ?_
        simp only [max_le_iff]
        exact ⟨by omega, by omega⟩
    | none =>
      rw [onCrash_eq_none hw hlk]
      have hcore := removal_core_plain h w (eraseA s.workerReq w)
        (eraseA s.lastUsed w)
      have hfil := length_filter_ne_ge s.workers w h.workers_nodup
      obtain ⟨r1, r2, r3, r4, r5, r6⟩ := respawnDrain_spec
        { s with activeWorkers := eraseW s.activeWorkers w
                 workerReq := eraseA s.workerReq w
                 lastUsed := eraseA s.lastUsed w
                 workers := s.workers.filter (· ≠ w) } hcore (by
        intro ht
        have := h.floor ht
        show s.minWorkers ≤ (s.workers.filter (· ≠ w)).length + 1
        omega)
      refine ⟨r1, r3, r4, r5, ?_⟩
      refine le_trans r6 ?_
      simp only [max_le_iff]
      exact ⟨by omega, by omega⟩
  · rw [onCrash_eq_out hw]
    exact ⟨h, rfl, rfl, rfl, le_max_left _ _⟩

/-- A timeout firing for a request no longer pending (already settled or
cleared) is a no-op, per the callback's guard. -/
theorem onTimeout_eq_none {s : PoolState} {rid : ℕ}
    (hlk : lookupA s.pending rid = none) : onTimeout s rid = s := by
  unfold onTimeout
  rw [hlk]

/-- A timeout firing for a still-pending request: settle with a timeout
error, remove the captured worker, respawn if below floor, drain. -/
theorem onTimeout_eq_fire {s : PoolState} {rid w : ℕ}
    (hlk : lookupA s.pending rid = some w) :
    onTimeout s rid =
      (let t := { s with pending := s.pending.filter (fun p => p.1 ≠ rid)
                         activeWorkers := eraseW s.activeWorkers w
                         workerReq := eraseA (eraseA s.workerReq w) w
                         settled := s.settled ++ [(rid, SettleKind.timedOut)]
                         workers := s.workers.filter (· ≠ w)
                         lastUsed := eraseA s.lastUsed w }
       processQueue
         (if t.workers.length < t.minWorkers then (createWorker t).2 else t)) := by
  unfold onTimeout
  rw [hlk]
  rfl

/-- The timeout callback preserves the invariant, the capacity, the floor
and the shutdown flag, and keeps the worker count at or below
`max s.workers.length s.maxPoolSize`. -/
theorem onTimeout_spec (s : PoolState) (h : PoolWf s) (rid : ℕ) :
    PoolWf (onTimeout s rid) ∧
    (onTimeout s rid).maxPoolSize = s.maxPoolSize ∧
    (onTimeout s rid).minWorkers = s.minWorkers ∧
    (onTimeout s rid).terminated = s.terminated ∧
    (onTimeout s rid).workers.length ≤ max s.workers.length s.maxPoolSize := by
  cases hlk : lookupA s.pending rid with
  | none =>
    rw [onTimeout_eq_none hlk]
    exact ⟨h, rfl, rfl, rfl, le_max_left _ _⟩
  | some w =>
    rw [onTimeout_eq_fire hlk]
    have hrid : rid ∈ s.pending.map Prod.fst := lookupA_some_mem hlk
    have hcore := removal_core h SettleKind.timedOut hrid w
      (eraseA (eraseA s.workerReq w) w) (eraseA s.lastUsed w)
    have hfil := length_filter_ne_ge s.workers w h.workers_nodup
    have hlen0 : (s.workers.filter (· ≠ w)).length ≤ s.workers.length :=
      List.length_filter_le _ _
    obtain ⟨r1, r2, r3, r4, r5, r6⟩ := respawnDrain_spec
      { s with pending := s.pending.filter (fun p => p.1 ≠ rid)
               activeWorkers := eraseW s.activeWorkers w
               workerReq := eraseA (eraseA s.workerReq w) w
               settled := s.settled ++ [(rid, SettleKind.timedOut)]
               workers := s.workers.filter (· ≠ w)
               lastUsed := eraseA s.lastUsed w } hcore (by
      intro ht
      have := h.floor ht
      show s.minWorkers ≤ (s.workers.filter (· ≠ w)).length + 1
      omega)
    refine ⟨r1, r3, r4, r5, ?_⟩
    refine le_trans r6 ?_
    simp only [max_le_iff]
    exact ⟨by omega, by omega⟩

/-- `removeWorker` changes only the worker list and the two maps. -/
theorem removeWorker_frame (s : PoolState) (w : ℕ) :
    (removeWorker s w).maxPoolSize = s.maxPoolSize ∧
    (removeWorker s w).minWorkers = s.minWorkers ∧
    (removeWorker s w).activeWorkers = s.activeWorkers ∧
    (removeWorker s w).queue = s.queue ∧
    (removeWorker s w).pending = s.pending ∧
    (removeWorker s w).settled = s.settled ∧
    (removeWorker s w).requestIdCounter = s.requestIdCounter ∧
    (removeWorker s w).terminated = s.terminated ∧
    (removeWorker s w).widCounter = s.widCounter ∧
    (removeWorker s w).nowMs = s.nowMs :=
  ⟨rfl, rfl, rfl, rfl, rfl, rfl, rfl, rfl, rfl, rfl⟩

/-- `removeWorker` of a non-active worker preserves the invariant when
the floor survives the removal. -/
theorem removeWorker_wf {s : PoolState} (h : PoolWf s) {w : ℕ}
    (hidle : w ∉ s.activeWorkers)
    (hfl : s.terminated = false →
      s.minWorkers ≤ (s.workers.filter (· ≠ w)).length) :
    PoolWf (removeWorker s w) := by
  obtain ⟨h1, h2, h3, h4, h5, h6, h7, h8, h9, h10, h11, h12, h13, h14, h15, h16⟩ := h
  refine ⟨h1.filter _, ?_, h3, ?_, h5, h6, hfl, h8, h9, h10, h11, h12, h13, h14,
    h15, h16⟩
  · intro x hx
    show x ∈ s.workers.filter (· ≠ w)
    refine List.mem_filter.2 ⟨h2 x hx, ?_⟩
    simp only [decide_eq_true_eq]
    intro hxw
    subst hxw
    exact hidle hx
  · intro x hx
    exact h4 x (List.mem_of_mem_filter hx)

/-- Unfolding equation for the removal loop. -/
theorem sweepRemove_cons (s : PoolState) (w : ℕ) (ws : List ℕ) :
    sweepRemove s (w :: ws) =
      if s.workers.length ≤ s.minWorkers then s
      else sweepRemove (removeWorker s w) ws := rfl

/-- The removal loop of the idle sweep leaves all scheduler state but
the worker list and its maps unchanged. -/
theorem sweepRemove_frame : ∀ (ws : List ℕ) (s : PoolState),
    (sweepRemove s ws).maxPoolSize = s.maxPoolSize ∧
    (sweepRemove s ws).minWorkers = s.minWorkers ∧
    (sweepRemove s ws).activeWorkers = s.activeWorkers ∧
    (sweepRemove s ws).queue = s.queue ∧
    (sweepRemove s ws).pending = s.pending ∧
    (sweepRemove s ws).settled = s.settled ∧
    (sweepRemove s ws).requestIdCounter = s.requestIdCounter ∧
    (sweepRemove s ws).terminated = s.terminated ∧
    (sweepRemove s ws).widCounter = s.widCounter := by
  intro ws
  induction ws with
  | nil => exact fun s => ⟨rfl, rfl, rfl, rfl, rfl, rfl, rfl, rfl, rfl⟩
  | cons w ws ih =>
    intro s
    rw [sweepRemove_cons]
    split
    · exact ⟨rfl, rfl, rfl, rfl, rfl, rfl, rfl, rfl, rfl⟩
    · exact ih (removeWorker s w)

/-- The removal loop only ever drops workers. -/
theorem sweepRemove_workers_sub : ∀ (ws : List ℕ) (s : PoolState),
    ∀ x ∈ (sweepRemove s ws).workers, x ∈ s.workers := by
  intro ws
  induction ws with
  | nil => exact fun s x hx => hx
  | cons w ws ih =>
    intro s x
    rw [sweepRemove_cons]
    split
    · exact id
    · intro hx
      exact List.mem_of_mem_filter (ih (removeWorker s w) x hx)

/-- A worker dropped by the removal loop was listed for removal. -/
theorem sweepRemove_removed_mem : ∀ (ws : List ℕ) (s : PoolState),
    ∀ x ∈ s.workers, x ∉ (sweepRemove s ws).workers → x ∈ ws := by
  intro ws
  induction ws with
  | nil => exact fun s x hx hx2 => absurd hx hx2
  | cons w ws ih =>
    intro s x hx
    rw [sweepRemove_cons]
    split
    · intro hx2
      exact absurd hx hx2
    · intro hx2
      by_cases hxw : x = w
      · exact hxw ▸ List.mem_cons_self _ _
      · refine List.mem_cons_of_mem _ (ih (removeWorker s w) x ?_ hx2)
        refine List.mem_filter.2 ⟨hx, ?_⟩
        simpa using hxw

/-- The removal loop never drops below the floor. -/
theorem sweepRemove_floor : ∀ (ws : List ℕ) (s : PoolState), s.workers.Nodup →
    s.minWorkers ≤ s.workers.length →
    s.minWorkers ≤ (sweepRemove s ws).workers.length := by
  intro ws
  induction ws with
  | nil => exact fun s _ hle => hle
  | cons w ws ih =>
    intro s hnd hle
    rw [sweepRemove_cons]
    split
    · exact hle
    · rename_i hln
      have hfe := length_filter_ne_ge s.workers w hnd
      have hmw : (removeWorker s w).minWorkers = s.minWorkers := rfl
      rw [← hmw]
      exact ih (removeWorker s w) (hnd.filter _) (by
        show s.minWorkers ≤ (s.workers.filter (· ≠ w)).length
        omega)

/-- The removal loop can only shrink the worker list. -/
theorem sweepRemove_len_le : ∀ (ws : List ℕ) (s : PoolState),
    (sweepRemove s ws).workers.length ≤ s.workers.length := by
  intro ws
  induction ws with
  | nil => exact fun s => le_refl _
  | cons w ws ih =>
    intro s
    rw [sweepRemove_cons]
    split
    · exact le_refl _
    · refine le_trans (ih (removeWorker s w)) ?_
      show (s.workers.filter (· ≠ w)).length ≤ s.workers.length
      exact List.length_filter_le _ _

/-- If the removal loop ends strictly above the floor, every listed
worker was removed (the loop never hit its floor guard). -/
theorem sweepRemove_all : ∀ (ws : List ℕ) (s : PoolState),
    s.minWorkers < (sweepRemove s ws).workers.length →
    ∀ x ∈ ws, x ∉ (sweepRemove s ws).workers := by
  intro ws
  induction ws with
  | nil => exact fun s _ x hx => absurd hx (List.not_mem_nil x)
  | cons w ws ih =>
    intro s
    rw [sweepRemove_cons]
    split
    · rename_i hln
      intro hgt
      omega
    · rename_i hln
      intro hgt x hx hmem
      have hsub := sweepRemove_workers_sub ws (removeWorker s w) x hmem
      have hmf := List.mem_filter.1 hsub
      have hxw : x ≠ w := by simpa using hmf.2
      rcases List.mem_cons.1 hx with hxeq | hx2
      · exact hxw hxeq
      · have hmw : (removeWorker s w).minWorkers = s.minWorkers := rfl
        exact ih (removeWorker s w) (by omega) x hx2 hmem

/-- The removal loop preserves the invariant when all listed workers are
idle. -/
theorem sweepRemove_wf : ∀ (ws : List ℕ) (s : PoolState), PoolWf s →
    (∀ x ∈ ws, x ∉ s.activeWorkers) → PoolWf (sweepRemove s ws) := by
  intro ws
  induction ws with
  | nil => exact fun s h _ => h
  | cons w ws ih =>
    intro s h hidle
    rw [sweepRemove_cons]
    split
    · exact h
    · rename_i hln
      refine ih (removeWorker s w) ?_ ?_
      · refine removeWorker_wf h (hidle w (List.mem_cons_self _ _)) ?_
        intro _
        have := length_filter_ne_ge s.workers w h.workers_nodup
        omega
      · intro x hx
        exact hidle x (List.mem_cons_of_mem _ hx)

/-- Everything the sweep collects is an idle, expired, live worker. -/
theorem sweepCollect_spec (s : PoolState) :
    ∀ x ∈ sweepCollect s,
      x ∈ s.workers ∧ x ∉ s.activeWorkers ∧ isExpired s x = true := by
  intro x hx
  unfold sweepCollect at hx
  split at hx
  · cases hx
  · have h2 := List.mem_filter.1 hx
    have h3 := h2.2
    simp only [Bool.and_eq_true, Bool.not_eq_true'] at h3
    refine ⟨h2.1, ?_, h3.2⟩
    intro hmem
    have : s.activeWorkers.contains x = true := List.elem_iff.2 hmem
    rw [this] at h3
    cases h3.1

/-- When the pool is above the floor, the sweep collects exactly the
expired idle workers. -/
theorem sweepCollect_mem (s : PoolState) (hln : ¬ s.workers.length ≤ s.minWorkers)
    {x : ℕ} (hx : x ∈ s.workers) (hidle : x ∉ s.activeWorkers)
    (hexp : isExpired s x = true) : x ∈ sweepCollect s := by
  unfold sweepCollect
  rw [if_neg hln]
  refine List.mem_filter.2 ⟨hx, ?_⟩
  simp only [Bool.and_eq_true, Bool.not_eq_true']
  refine ⟨?_, hexp⟩
  cases hc : s.activeWorkers.contains x with
  | false => rfl
  | true => exact absurd (List.elem_iff.1 hc) hidle

/-- The idle sweep preserves the invariant and every scheduling field,
and only shrinks the worker list. -/
theorem cleanup_spec (s : PoolState) (h : PoolWf s) :
    PoolWf (cleanupIdleWorkers s) ∧
    (cleanupIdleWorkers s).maxPoolSize = s.maxPoolSize ∧
    (cleanupIdleWorkers s).minWorkers = s.minWorkers ∧
    (cleanupIdleWorkers s).terminated = s.terminated ∧
    (cleanupIdleWorkers s).queue = s.queue ∧
    (cleanupIdleWorkers s).pending = s.pending ∧
    (cleanupIdleWorkers s).settled = s.settled ∧
    (cleanupIdleWorkers s).activeWorkers = s.activeWorkers ∧
    (cleanupIdleWorkers s).workers.length ≤ s.workers.length := by
  have hidle : ∀ x ∈ sweepCollect s, x ∉ s.activeWorkers :=
    fun x hx => (sweepCollect_spec s x hx).2.1
  have hfr := sweepRemove_frame (sweepCollect s) s
  exact ⟨sweepRemove_wf _ s h hidle, hfr.1, hfr.2.1, hfr.2.2.2.2.2.2.2.1,
    hfr.2.2.2.1, hfr.2.2.2.2.1, hfr.2.2.2.2.2.1, hfr.2.2.1,
    sweepRemove_len_le _ s⟩

/-- Unfolding equation for the capacity-shrink loop. -/
theorem shrinkIdle_succ (fuel : ℕ) (s : PoolState) :
    shrinkIdle (fuel + 1) s =
      (if s.maxPoolSize < s.workers.length then
        match s.workers.find? (fun w => !s.activeWorkers.contains w) with
        | some w => shrinkIdle fuel (removeWorker s w)
        | none => s
      else s) := rfl

/-- The shrink loop leaves every field but the worker list and its maps
unchanged. -/
theorem shrinkIdle_frame : ∀ (fuel : ℕ) (s : PoolState),
    (shrinkIdle fuel s).maxPoolSize = s.maxPoolSize ∧
    (shrinkIdle fuel s).minWorkers = s.minWorkers ∧
    (shrinkIdle fuel s).activeWorkers = s.activeWorkers ∧
    (shrinkIdle fuel s).queue = s.queue ∧
    (shrinkIdle fuel s).pending = s.pending ∧
    (shrinkIdle fuel s).settled = s.settled ∧
    (shrinkIdle fuel s).requestIdCounter = s.requestIdCounter ∧
    (shrinkIdle fuel s).terminated = s.terminated ∧
    (shrinkIdle fuel s).widCounter = s.widCounter := by
  intro fuel
  induction fuel with
  | zero => exact fun s => ⟨rfl, rfl, rfl, rfl, rfl, rfl, rfl, rfl, rfl⟩
  | succ fuel ih =>
    intro s
    rw [shrinkIdle_succ]
    split
    · cases hf : s.workers.find? (fun w => !s.activeWorkers.contains w) with
      | some w => exact ih (removeWorker s w)
      | none => exact ⟨rfl, rfl, rfl, rfl, rfl, rfl, rfl, rfl, rfl⟩
    · exact ⟨rfl, rfl, rfl, rfl, rfl, rfl, rfl, rfl, rfl⟩

/-- The shrink loop only ever drops workers. -/
theorem shrinkIdle_sub : ∀ (fuel : ℕ) (s : PoolState),
    ∀ x ∈ (shrinkIdle fuel s).workers, x ∈ s.workers := by
  intro fuel
  induction fuel with
  | zero => exact fun s x hx => hx
  | succ fuel ih =>
    intro s x
    rw [shrinkIdle_succ]
    split
    · cases hf : s.workers.find? (fun w => !s.activeWorkers.contains w) with
      | some w =>
        intro hx
        exact List.mem_of_mem_filter (ih (removeWorker s w) x hx)
      | none => exact id
    · exact id

/-- Workers dropped by the shrink loop were idle. -/
theorem shrinkIdle_removed_idle : ∀ (fuel : ℕ) (s : PoolState),
    ∀ x ∈ s.workers, x ∉ (shrinkIdle fuel s).workers → x ∉ s.activeWorkers := by
  intro fuel
  induction fuel with
  | zero => exact fun s x hx hx2 => absurd hx hx2
  | succ fuel ih =>
    intro s x hx
    rw [shrinkIdle_succ]
    split
    · cases hf : s.workers.find? (fun w => !s.activeWorkers.contains w) with
      | some w =>
        intro hx2
        have hwidle : w ∉ s.activeWorkers := by
          have hps := List.find?_some hf
          simp only [Bool.not_eq_true'] at hps
          intro hmem
          have hc : s.activeWorkers.contains w = true := List.elem_iff.2 hmem
          rw [hc] at hps
          cases hps
        by_cases hxw : x = w
        · exact hxw ▸ hwidle
        · refine ih (removeWorker s w) x ?_ hx2
          refine List.mem_filter.2 ⟨hx, ?_⟩
          simpa using hxw
      | none =>
        intro hx2
        exact absurd hx hx2
    · intro hx2
      exact absurd hx hx2

/-- The shrink loop preserves worker-list distinctness. -/
theorem shrinkIdle_nodup : ∀ (fuel : ℕ) (s : PoolState), s.workers.Nodup →
    (shrinkIdle fuel s).workers.Nodup := by
  intro fuel
  induction fuel with
  | zero => exact fun s h => h
  | succ fuel ih =>
    intro s h
    rw [shrinkIdle_succ]
    split
    · cases hf : s.workers.find? (fun w => !s.activeWorkers.contains w) with
      | some w => exact ih (removeWorker s w) (h.filter _)
      | none => exact h
    · exact h

/-- The shrink loop only shrinks the worker list. -/
theorem shrinkIdle_len_le : ∀ (fuel : ℕ) (s : PoolState),
    (shrinkIdle fuel s).workers.length ≤ s.workers.length := by
  intro fuel
  induction fuel with
  | zero => exact fun s => le_refl _
  | succ fuel ih =>
    intro s
    rw [shrinkIdle_succ]
    split
    · cases hf : s.workers.find? (fun w => !s.activeWorkers.contains w) with
      | some w =>
        refine le_trans (ih (removeWorker s w)) ?_
        show (s.workers.filter (· ≠ w)).length ≤ s.workers.length
        exact List.length_filter_le _ _
      | none => exact le_refl _
    · exact le_refl _

/-- The shrink loop never goes below `min (length, capacity)`. -/
theorem shrinkIdle_len_ge : ∀ (fuel : ℕ) (s : PoolState), s.workers.Nodup →
    min s.workers.length s.maxPoolSize ≤ (shrinkIdle fuel s).workers.length := by
  intro fuel
  induction fuel with
  | zero => exact fun s _ => min_le_left _ _
  | succ fuel ih =>
    intro s hnd
    rw [shrinkIdle_succ]
    split
    · rename_i hlt
      cases hf : s.workers.find? (fun w => !s.activeWorkers.contains w) with
      | some w =>
        have hfe := length_filter_ne_ge s.workers w hnd
        have h2 := ih (removeWorker s w) (hnd.filter _)
        have hmx : (removeWorker s w).maxPoolSize = s.maxPoolSize := rfl
        have hw : (removeWorker s w).workers.length =
            (s.workers.filter (· ≠ w)).length := rfl
        rw [hmx, hw] at h2
        show min s.workers.length s.maxPoolSize ≤
          (shrinkIdle fuel (removeWorker s w)).workers.length
        omega
      | none => exact min_le_left _ _
    · exact min_le_left _ _

/-- With enough fuel, the shrink loop stops either at or below the new
capacity or with every remaining worker active. -/
theorem shrinkIdle_stop : ∀ (fuel : ℕ) (s : PoolState), s.workers.length ≤ fuel →
    (shrinkIdle fuel s).workers.length ≤ s.maxPoolSize ∨
    ∀ x ∈ (shrinkIdle fuel s).workers, x ∈ s.activeWorkers := by
  intro fuel
  induction fuel with
  | zero =>
    intro s hfu
    left
    have := shrinkIdle_len_le 0 s
    omega
  | succ fuel ih =>
    intro s hfu
    rw [shrinkIdle_succ]
    split
    · rename_i hlt
      cases hf : s.workers.find? (fun w => !s.activeWorkers.contains w) with
      | some w =>
        have hwmem := List.mem_of_find?_eq_some hf
        have hlen : (s.workers.filter (· ≠ w)).length < s.workers.length := by
          rw [List.length_filter_lt_length_iff_exists]
          exact ⟨w, hwmem, by simp⟩
        have h2 := ih (removeWorker s w) (by
          show (s.workers.filter (· ≠ w)).length ≤ fuel
          omega)
        have hmx : (removeWorker s w).maxPoolSize = s.maxPoolSize := rfl
        have hac : (removeWorker s w).activeWorkers = s.activeWorkers := rfl
        rw [hmx, hac] at h2
        exact h2
      | none =>
        right
        intro x hx
        have h2 := List.find?_eq_none.1 hf x hx
        simp only [Bool.not_eq_true'] at h2
        have hc : s.activeWorkers.contains x = true := by
          cases hcx : s.activeWorkers.contains x with
          | false => exact absurd hcx h2
          | true => rfl
        exact List.elem_iff.1 hc
    · rename_i hlt
      left
      omega

/-- Unfolding equation for `setMaxPoolSize`. -/
theorem setMaxPoolSize_eq (s : PoolState) (n : ℤ) :
    setMaxPoolSize s n =
      { shrinkIdle s.workers.length { s with maxPoolSize := (max 1 n).toNat } with
        minWorkers :=
          min (shrinkIdle s.workers.length
            { s with maxPoolSize := (max 1 n).toNat }).minWorkers
            ((max 1 n).toNat) } := rfl

/-- `setMaxPoolSize` sets the capacity, preserves the invariant, leaves
all scheduling state and the active set unchanged, removes only idle
workers, and stops either at the new capacity or with only active
workers left. -/
theorem setMaxPoolSize_spec (s : PoolState) (h : PoolWf s) (n : ℤ) :
    PoolWf (setMaxPoolSize s n) ∧
    (setMaxPoolSize s n).maxPoolSize = (max 1 n).toNat ∧
    (setMaxPoolSize s n).queue = s.queue ∧
    (setMaxPoolSize s n).pending = s.pending ∧
    (setMaxPoolSize s n).settled = s.settled ∧
    (setMaxPoolSize s n).activeWorkers = s.activeWorkers ∧
    (setMaxPoolSize s n).requestIdCounter = s.requestIdCounter ∧
    (setMaxPoolSize s n).terminated = s.terminated ∧
    (∀ x ∈ (setMaxPoolSize s n).workers, x ∈ s.workers) ∧
    (∀ x ∈ s.workers, x ∉ (setMaxPoolSize s n).workers → x ∉ s.activeWorkers) ∧
    ((setMaxPoolSize s n).workers.length ≤ (max 1 n).toNat ∨
      ∀ x ∈ (setMaxPoolSize s n).workers, x ∈ s.activeWorkers) ∧
    (setMaxPoolSize s n).workers.length ≤ s.workers.length := by
  obtain ⟨h1, h2, h3, h4, h5, h6, h7, h8, h9, h10, h11, h12, h13, h14, h15, h16⟩ := h
  rw [setMaxPoolSize_eq]
  have hfr := shrinkIdle_frame s.workers.length
    { s with maxPoolSize := (max 1 n).toNat }
  have hmax : (shrinkIdle s.workers.length
      { s with maxPoolSize := (max 1 n).toNat }).maxPoolSize = (max 1 n).toNat :=
    hfr.1
  have hmin : (shrinkIdle s.workers.length
      { s with maxPoolSize := (max 1 n).toNat }).minWorkers = s.minWorkers :=
    hfr.2.1
  have hact : (shrinkIdle s.workers.length
      { s with maxPoolSize := (max 1 n).toNat }).activeWorkers = s.activeWorkers :=
    hfr.2.2.1
  have hqu : (shrinkIdle s.workers.length
      { s with maxPoolSize := (max 1 n).toNat }).queue = s.queue := hfr.2.2.2.1
  have hpe : (shrinkIdle s.workers.length
      { s with maxPoolSize := (max 1 n).toNat }).pending = s.pending :=
    hfr.2.2.2.2.1
  have hse : (shrinkIdle s.workers.length
      { s with maxPoolSize := (max 1 n).toNat }).settled = s.settled :=
    hfr.2.2.2.2.2.1
  have hco : (shrinkIdle s.workers.length
      { s with maxPoolSize := (max 1 n).toNat }).requestIdCounter =
      s.requestIdCounter := hfr.2.2.2.2.2.2.1
  have hte : (shrinkIdle s.workers.length
      { s with maxPoolSize := (max 1 n).toNat }).terminated = s.terminated :=
    hfr.2.2.2.2.2.2.2.1
  have hwi : (shrinkIdle s.workers.length
      { s with maxPoolSize := (max 1 n).toNat }).widCounter = s.widCounter :=
    hfr.2.2.2.2.2.2.2.2
  have hsub : ∀ x ∈ (shrinkIdle s.workers.length
      { s with maxPoolSize := (max 1 n).toNat }).workers, x ∈ s.workers :=
    shrinkIdle_sub s.workers.length { s with maxPoolSize := (max 1 n).toNat }
  have hrem : ∀ x ∈ s.workers, x ∉ (shrinkIdle s.workers.length
      { s with maxPoolSize := (max 1 n).toNat }).workers →
      x ∉ s.activeWorkers :=
    shrinkIdle_removed_idle s.workers.length
      { s with maxPoolSize := (max 1 n).toNat }
  have hnd2 : (shrinkIdle s.workers.length
      { s with maxPoolSize := (max 1 n).toNat }).workers.Nodup :=
    shrinkIdle_nodup s.workers.length
      { s with maxPoolSize := (max 1 n).toNat } h1
  have hge : min s.workers.length ((max 1 n).toNat) ≤
      (shrinkIdle s.workers.length
        { s with maxPoolSize := (max 1 n).toNat }).workers.length :=
    shrinkIdle_len_ge s.workers.length
      { s with maxPoolSize := (max 1 n).toNat } h1
  have hle : (shrinkIdle s.workers.length
      { s with maxPoolSize := (max 1 n).toNat }).workers.length ≤
      s.workers.length :=
    shrinkIdle_len_le s.workers.length
      { s with maxPoolSize := (max 1 n).toNat }
  have hstop : (shrinkIdle s.workers.length
        { s with maxPoolSize := (max 1 n).toNat }).workers.length ≤
        (max 1 n).toNat ∨
      ∀ x ∈ (shrinkIdle s.workers.length
        { s with maxPoolSize := (max 1 n).toNat }).workers,
        x ∈ s.activeWorkers :=
    shrinkIdle_stop s.workers.length
      { s with maxPoolSize := (max 1 n).toNat } (le_refl _)
  have hasub : ∀ x ∈ s.activeWorkers, x ∈ (shrinkIdle s.workers.length
      { s with maxPoolSize := (max 1 n).toNat }).workers := by
    intro x hx
    by_contra hmem
    exact hrem x (h2 x hx) hmem hx
  refine ⟨⟨?_, ?_, ?_, ?_, ?_, ?_, ?_, ?_, ?_, ?_, ?_, ?_, ?_, ?_, ?_, ?_⟩,
    ?_, ?_, ?_, ?_, ?_, ?_, ?_, ?_, ?_, ?_, ?_⟩
  · dsimp only
    exact hnd2
  · dsimp only
    rw [hact]
    exact hasub
  · dsimp only
    rw [hact]
    exact h3
  · dsimp only
    rw [hwi]
    intro x hx
    exact h4 x (hsub x hx)
  · dsimp only
    rw [hmax]
    omega
  · dsimp only
    rw [hmax]
    exact min_le_right _ _
  · dsimp only
    intro ht
    rw [hte] at ht
    have hf2 := h7 ht
    rw [hmin]
    omega
  · dsimp only
    rw [hpe]
    exact h8
  · dsimp only
    rw [hqu]
    exact h9
  · dsimp only
    rw [hse]
    exact h10
  · dsimp only
    rw [hpe, hqu]
    exact h11
  · dsimp only
    rw [hpe, hse]
    exact h12
  · dsimp only
    rw [hqu, hse]
    exact h13
  · dsimp only
    rw [hpe, hco]
    exact h14
  · dsimp only
    rw [hqu, hco]
    exact h15
  · dsimp only
    rw [hse, hco]
    exact h16
  · dsimp only
    exact hmax
  · dsimp only
    exact hqu
  · dsimp only
    exact hpe
  · dsimp only
    exact hse
  · dsimp only
    exact hact
  · dsimp only
    exact hco
  · dsimp only
    exact hte
  · dsimp only
    exact hsub
  · dsimp only
    exact hrem
  · dsimp only
    exact hstop
  · dsimp only
    exact hle

/-- Folding `updMin` from a set accumulator yields a minimum below the
accumulator and every element. -/
theorem foldl_updMin_spec (l : List ℚ) : ∀ x : ℚ,
    ∃ m, l.foldl updMin (some x) = some m ∧ m ≤ x ∧ ∀ v ∈ l, m ≤ v := by
  induction l with
  | nil => exact fun x => ⟨x, rfl, le_refl x, by simp⟩
  | cons v l ih =>
    intro x
    show ∃ m, l.foldl updMin (updMin (some x) v) = some m ∧ _
    rw [show updMin (some x) v = if v < x then some v else some x from rfl]
    split_ifs with h
    · obtain ⟨m, hm, hmx, hml⟩ := ih v
      exact ⟨m, hm, le_trans hmx (le_of_lt h), by
        intro u hu
        rcases List.mem_cons.1 hu with rfl | hu
        · exact hmx
        · exact hml u hu⟩
    · obtain ⟨m, hm, hmx, hml⟩ := ih x
      exact ⟨m, hm, hmx, by
        intro u hu
        rcases List.mem_cons.1 hu with rfl | hu
        · exact le_trans hmx (not_lt.1 h)
        · exact hml u hu⟩

/-- Folding `updMax` from a set accumulator yields a maximum above the
accumulator and every element. -/
theorem foldl_updMax_spec (l : List ℚ) : ∀ x : ℚ,
    ∃ m, l.foldl updMax (some x) = some m ∧ x ≤ m ∧ ∀ v ∈ l, v ≤ m := by
  induction l with
  | nil => exact fun x => ⟨x, rfl, le_refl x, by simp⟩
  | cons v l ih =>
    intro x
    show ∃ m, l.foldl updMax (updMax (some x) v) = some m ∧ _
    rw [show updMax (some x) v = if x < v then some v else some x from rfl]
    split_ifs with h
    · obtain ⟨m, hm, hmx, hml⟩ := ih v
      exact ⟨m, hm, le_trans (le_of_lt h) hmx, by
        intro u hu
        rcases List.mem_cons.1 hu with rfl | hu
        · exact hmx
        · exact hml u hu⟩
    · obtain ⟨m, hm, hmx, hml⟩ := ih x
      exact ⟨m, hm, hmx, by
        intro u hu
        rcases List.mem_cons.1 hu with rfl | hu
        · exact le_trans (not_lt.1 h) hmx
        · exact hml u hu⟩

/-- On a nonempty list the running minimum is attained and bounds every
element. -/
theorem foldMinO_spec (v : ℚ) (l : List ℚ) (hv : v ∈ l) :
    ∃ m, foldMinO l = some m ∧ ∀ u ∈ l, m ≤ u := by
  cases l with
  | nil => cases hv
  | cons w l =>
    obtain ⟨m, hm, hmx, hml⟩ := foldl_updMin_spec l w
    refine ⟨m, hm, ?_⟩
    intro u hu
    rcases List.mem_cons.1 hu with rfl | hu
    · exact hmx
    · exact hml u hu

/-- On a nonempty list the running maximum is attained and bounds every
element. -/
theorem foldMaxO_spec (v : ℚ) (l : List ℚ) (hv : v ∈ l) :
    ∃ m, foldMaxO l = some m ∧ ∀ u ∈ l, u ≤ m := by
  cases l with
  | nil => cases hv
  | cons w l =>
    obtain ⟨m, hm, hmx, hml⟩ := foldl_updMax_spec l w
    refine ⟨m, hm, ?_⟩
    intro u hu
    rcases List.mem_cons.1 hu with rfl | hu
    · exact hmx
    · exact hml u hu

/-- With a single line, `computeLineParams` for the `linear` curve yields
amplitude `0.85`, frequency `0.9` (since `Math.sin 0 = 0`), phase `0`,
and offset `-5`. -/
theorem computeLineParams_one_linear (mp : MathPrims) (hsin : mp.sin 0 = 0) :
    computeLineParams mp 1 "linear" = [⟨17/20, 9/10, 0, -5⟩] := by
  unfold computeLineParams
  rw [show List.range 1 = [0] from rfl]
  simp only [List.map_cons, List.map_nil, List.cons.injEq, and_true]
  norm_num [hsin]
  rw [if_neg (by decide), if_neg (by decide)]

/-- The `linear` entry of the curve table: `t * 100 + noise * 5`. -/
theorem curveRaw_linear (mp : MathPrims) (t noise : ℚ) :
    curveRaw mp "linear" t noise = t * 100 + noise * 5 := rfl

/-- One point of the inner loop for a single non-random-walk line: one
PRNG draw, the walk state untouched, and the single `y` value built from
the curve's raw value with the line's amplitude and offset applied. -/
theorem genPointRow_single (mp : MathPrims) (c : String) (hc : ¬ c = "randomWalk")
    (p : LineParams) (t : ℚ) (st : GenState) :
    genPointRow mp c [p] t st =
      (⟨xorshiftStep st.rng, st.walk⟩,
       [curveRaw mp c (t * p.freqMul + p.phaseAdd)
          ((randomCenteredStep st.rng).2) * p.ampMul + p.offset]) := by
  simp [genPointRow, hc, List.range_succ]
  rfl

/-- The generation loop produces one row per remaining point. -/
theorem genRows_length (mp : MathPrims) (c : String) (params : List LineParams)
    (xMaxIdx : ℕ) : ∀ (n i : ℕ) (st : GenState),
    (genRows mp c params xMaxIdx n i st).length = n := by
  intro n
  induction n with
  | zero => intro i st; rfl
  | succ n ih =>
    intro i st
    show (_ :: genRows mp c params xMaxIdx n (i + 1) _).length = n + 1
    rw [List.length_cons, ih]

/-- Closed form of the rows produced for a single `linear` line: point
`i + j` consumes the `j`-th PRNG draw after `st.rng`, and its value is
`((t*0.9)*100 + 5*noise) * 0.85 - 5` with `t = (i+j)/xMaxIdx`. -/
theorem genRows_linear (mp : MathPrims) (xMaxIdx : ℕ) : ∀ (n i : ℕ) (st : GenState)
    (j : ℕ), j < n →
    (genRows mp "linear" [⟨17/20, 9/10, 0, -5⟩] xMaxIdx n i st).getD j [] =
      [((((i + j : ℕ) : ℚ) / (xMaxIdx : ℚ)) * (9/10) * 100 +
        (randomCenteredStep (xorshiftStep^[j] st.rng)).2 * 5) * (17/20) - 5] := by
  intro n
  induction n with
  | zero => intro i st j hj; omega
  | succ n ih =>
    intro i st j hj
    show ((genPointRow mp "linear" _ _ st).2 ::
        genRows mp "linear" _ xMaxIdx n (i + 1) (genPointRow mp "linear" _ _ st).1).getD j []
      = _
    rw [genPointRow_single mp "linear" (by decide) _ _ st]
    cases j with
    | zero =>
      rw [List.getD_cons_zero, curveRaw_linear]
      simp only [Nat.add_zero, Function.iterate_zero_apply, List.cons.injEq, and_true]
      ring
    | succ j =>
      show (genRows mp "linear" _ xMaxIdx n (i + 1) ⟨xorshiftStep st.rng, st.walk⟩).getD j [] = _
      rw [ih (i + 1) ⟨xorshiftStep st.rng, st.walk⟩ j (by omega)]
      have hij : ((i + 1 + j : ℕ) : ℚ) = ((i + (j + 1) : ℕ) : ℚ) := by
        push_cast
        ring
      rw [hij]
      show [_] = [_]
      rw [Function.iterate_succ_apply]

/-- C2 (amended): for `pointCount = 100`, `lineCount = 1`,
`curveSelector = "linear"`, the generated `x` series is `[0, 1, ..., 99]`
and, for every point index `i < 100`, the single line's value is
`y[i] = ((t * 0.9) * 100 + 5 * noise_i) * 0.85 - 5` with `t = i/99` and
`noise_i` the `i`-th centered PRNG draw — the per-line parameters
(frequency `0.9`, amplitude `0.85`, offset `-5`) apply even to a single
line, so the spec's `y[i] = t*100 + 5*noise` does not hold — and the
tracked bounds satisfy `yMin ≤ y[i] ≤ yMax` for every value, both bounds
being attained (finite). -/
theorem c2_linear_generation (mp : MathPrims) (r0 : ℕ) (hsin : mp.sin 0 = 0) :
    (generateData mp 100 1 "linear" r0).x =
      (List.range 100).map (fun i => (i : ℚ)) ∧
    (generateData mp 100 1 "linear" r0).rows.length = 100 ∧
    (∀ i : ℕ, i < 100 → (generateData mp 100 1 "linear" r0).rows.getD i [] =
      [(((i : ℚ) / 99) * (9/10) * 100 +
        (randomCenteredStep (xorshiftStep^[i] r0)).2 * 5) * (17/20) - 5]) ∧
    (∃ m, (generateData mp 100 1 "linear" r0).yMin = some m ∧
      ∀ v ∈ (generateData mp 100 1 "linear" r0).rows.flatten, m ≤ v) ∧
    (∃ M, (generateData mp 100 1 "linear" r0).yMax = some M ∧
      ∀ v ∈ (generateData mp 100 1 "linear" r0).rows.flatten, v ≤ M) := by
  have hrows : (generateData mp 100 1 "linear" r0).rows =
      genRows mp "linear" [⟨17/20, 9/10, 0, -5⟩] 99 100 0 ⟨r0, List.replicate 1 0⟩ := by
    unfold generateData
    rw [computeLineParams_one_linear mp hsin]
  have hlen : (generateData mp 100 1 "linear" r0).rows.length = 100 := by
    rw [hrows, genRows_length]
  have hval : ∀ i : ℕ, i < 100 →
      (generateData mp 100 1 "linear" r0).rows.getD i [] =
      [(((i : ℚ) / 99) * (9/10) * 100 +
        (randomCenteredStep (xorshiftStep^[i] r0)).2 * 5) * (17/20) - 5] := by
    intro i hi
    rw [hrows, genRows_linear mp 99 100 0 ⟨r0, List.replicate 1 0⟩ i hi]
    norm_num
  obtain ⟨w, hw⟩ : ∃ w, (generateData mp 100 1 "linear" r0).rows.getD 0 [] = [w] :=
    ⟨_, hval 0 (by norm_num)⟩
  have hwmem : w ∈ (generateData mp 100 1 "linear" r0).rows.flatten := by
    apply List.mem_flatten.2
    refine ⟨[w], ?_, List.mem_singleton_self w⟩
    rw [← hw]
    have h0 : 0 < (generateData mp 100 1 "linear" r0).rows.length := by
      rw [hlen]; norm_num
    rw [List.getD_eq_getElem _ [] h0]
    exact List.getElem_mem h0
  have hymin : (generateData mp 100 1 "linear" r0).yMin =
      foldMinO ((generateData mp 100 1 "linear" r0).rows.flatten) := by
    simp only [generateData]
  have hymax : (generateData mp 100 1 "linear" r0).yMax =
      foldMaxO ((generateData mp 100 1 "linear" r0).rows.flatten) := by
    simp only [generateData]
  refine ⟨rfl, hlen, hval, ?_, ?_⟩
  · obtain ⟨m, hm, hml⟩ := foldMinO_spec w _ hwmem
    exact ⟨m, by rw [hymin, hm], hml⟩
  · obtain ⟨M, hM, hMl⟩ := foldMaxO_spec w _ hwmem
    exact ⟨M, by rw [hymax, hM], hMl⟩

/-- Witness for C2 at the all-zero math primitives (which agree with the
IEEE ones at the only evaluated point, `sin 0`) and initial state `1`. -/
theorem c2_linear_generation_witness :
    (generateData mp0 100 1 "linear" 1).x =
      (List.range 100).map (fun i => (i : ℚ)) ∧
    (generateData mp0 100 1 "linear" 1).rows.length = 100 ∧
    (∀ i : ℕ, i < 100 → (generateData mp0 100 1 "linear" 1).rows.getD i [] =
      [(((i : ℚ) / 99) * (9/10) * 100 +
        (randomCenteredStep (xorshiftStep^[i] 1)).2 * 5) * (17/20) - 5]) ∧
    (∃ m, (generateData mp0 100 1 "linear" 1).yMin = some m ∧
      ∀ v ∈ (generateData mp0 100 1 "linear" 1).rows.flatten, m ≤ v) ∧
    (∃ M, (generateData mp0 100 1 "linear" 1).yMax = some M ∧
      ∀ v ∈ (generateData mp0 100 1 "linear" 1).rows.flatten, v ≤ M) :=
  c2_linear_generation mp0 1 rfl

/-- C2 counterexample: at `pointCount = 100`, `lineCount = 1`,
`curveSelector = "linear"` and PRNG state `1`, the first generated value
differs from the spec's `y[0] = t*100 + 5*noise` (with `t = 0` and
`noise` the run's first centered draw): the code produces
`((t*0.9)*100 + noise*5) * 0.85 - 5`, which at `t = 0` differs from
`5*noise` for every noise value in `[-0.5, 0.5)`. -/
theorem c2_claim_counterexample :
    (generateData mp0 100 1 "linear" 1).rows.getD 0 [] ≠
      [((0 : ℚ) / 99) * 100 + 5 * (randomCenteredStep 1).2] := by
  have hrows : (generateData mp0 100 1 "linear" 1).rows =
      genRows mp0 "linear" [⟨17/20, 9/10, 0, -5⟩] 99 100 0 ⟨1, List.replicate 1 0⟩ := by
    unfold generateData
    rw [computeLineParams_one_linear mp0 rfl]
  rw [hrows, genRows_linear mp0 99 100 0 ⟨1, List.replicate 1 0⟩ 0 (by norm_num)]
  have hx : (randomCenteredStep 1).2 = 270369/4294967296 - 1/2 := by
    show (xorshiftStep 1 : ℚ) / (U32 : ℚ) - 1/2 = _
    norm_num [show xorshiftStep 1 = 270369 from by decide, U32]
  simp only [Function.iterate_zero_apply, Nat.add_zero, Nat.cast_zero, ne_eq,
    List.cons.injEq, and_true, hx]
  norm_num

/-- Witness for C7 at `requestId = 1`, time `0`, state `1`. -/
theorem c7_prng_spec_witness :
    patOf (initialRngState 1 0) =
      (if ((1 : ℤ) * 2654435761 + 0) % (U32 : ℤ) = 0 then 1
       else (((1 : ℤ) * 2654435761 + 0) % (U32 : ℤ)).toNat) ∧
    patOf (initialRngState 1 0) ≠ 0 ∧
    randomStep 1 = (xorshiftStep 1, ((xorshiftStep 1 : ℚ)) / (U32 : ℚ)) ∧
    xorshiftStep 1 < U32 ∧
    0 ≤ (randomStep 1).2 ∧ (randomStep 1).2 < 1 ∧
    (randomCenteredStep 1).1 = xorshiftStep 1 ∧
    (randomCenteredStep 1).2 = (randomStep 1).2 - 1/2 ∧
    -(1/2 : ℚ) ≤ (randomCenteredStep 1).2 ∧ (randomCenteredStep 1).2 < 1/2 :=
  c7_prng_spec 1 0 1 (by norm_num [U32])

/-- The ids the queue-rejection loop of `terminate` appends to the log. -/
theorem terminate_log_ids (q : List QueuedReq) :
    (q.map (fun r => (r.id, SettleKind.poolTerminated))).map Prod.fst =
      q.map QueuedReq.id := by
  rw [List.map_map]
  rfl

/-- `terminate()` preserves the invariant. -/
theorem terminatePool_wf (s : PoolState) (h : PoolWf s) :
    PoolWf (terminatePool s) := by
  refine ⟨List.nodup_nil, ?_, List.nodup_nil, ?_, h.max_pos, h.floor_le_max, ?_,
    List.nodup_nil, List.nodup_nil, ?_, ?_, ?_, ?_, ?_, ?_, ?_⟩
  · intro x hx
    exact absurd hx (List.not_mem_nil x)
  · intro x hx
    exact absurd hx (List.not_mem_nil x)
  · intro ht
    exact Bool.noConfusion ht
  · show ((s.settled ++
      s.queue.map (fun r => (r.id, SettleKind.poolTerminated))).map Prod.fst).Nodup
    rw [List.map_append, terminate_log_ids]
    refine List.Nodup.append h.settled_nodup h.queue_nodup ?_
    intro a ha hq
    exact h.qs_disj a hq ha
  · intro r hr
    exact absurd hr (List.not_mem_nil r)
  · intro r hr
    exact absurd hr (List.not_mem_nil r)
  · intro r hr
    exact absurd hr (List.not_mem_nil r)
  · intro r hr
    exact absurd hr (List.not_mem_nil r)
  · intro r hr
    exact absurd hr (List.not_mem_nil r)
  · intro r hr
    replace hr : r ∈ (s.settled ++
      s.queue.map (fun x => (x.id, SettleKind.poolTerminated))).map Prod.fst := hr
    rw [List.map_append, terminate_log_ids] at hr
    rcases List.mem_append.1 hr with h1 | h1
    · exact h.settled_le r h1
    · exact h.queue_le r h1

/-- Advancing the clock preserves the invariant. -/
theorem tick_wf (s : PoolState) (h : PoolWf s) (dt : ℕ) :
    PoolWf { s with nowMs := s.nowMs + dt } := by
  obtain ⟨h1, h2, h3, h4, h5, h6, h7, h8, h9, h10, h11, h12, h13, h14, h15, h16⟩ := h
  exact ⟨h1, h2, h3, h4, h5, h6, h7, h8, h9, h10, h11, h12, h13, h14, h15, h16⟩

/-- The constructor builds exactly one warm worker (id 0), stamped at
`t0`, with capacity `max(1, ⌊maxPoolSize⌋)`. -/
theorem mkPool_eq (m : ℤ) (t0 : ℕ) :
    mkPool m t0 =
      { maxPoolSize := (max 1 m).toNat
        minWorkers := 1
        workers := [0]
        activeWorkers := []
        lastUsed := [(0, t0)]
        workerReq := []
        queue := []
        pending := []
        requestIdCounter := 0
        widCounter := 1
        nowMs := t0
        terminated := false
        settled := [] } := by
  have hcap : ¬ ((max 1 m).toNat ≤ ([] : List ℕ).length) := by
    simp only [List.length_nil]
    omega
  show (createWorker
    { maxPoolSize := (max 1 m).toNat
      minWorkers := 1
      workers := []
      activeWorkers := []
      lastUsed := []
      workerReq := []
      queue := []
      pending := []
      requestIdCounter := 0
      widCounter := 0
      nowMs := t0
      terminated := false
      settled := [] }).2 = _
  rw [createWorker_grow hcap]
  rfl

/-- A fresh pool satisfies the invariant. -/
theorem mkPool_wf (m : ℤ) (t0 : ℕ) : PoolWf (mkPool m t0) := by
  rw [mkPool_eq]
  refine ⟨List.nodup_singleton 0, ?_, List.nodup_nil, ?_, ?_, ?_, ?_,
    List.nodup_nil, List.nodup_nil, List.nodup_nil, ?_, ?_, ?_, ?_, ?_, ?_⟩
  · intro x hx
    exact absurd hx (List.not_mem_nil x)
  · intro w hw
    rcases List.mem_singleton.1 hw with rfl
    exact Nat.one_pos
  · show 1 ≤ (max 1 m).toNat
    omega
  · show 1 ≤ (max 1 m).toNat
    omega
  · intro _
    exact le_refl 1
  · intro r hr
    exact absurd hr (List.not_mem_nil r)
  · intro r hr
    exact absurd hr (List.not_mem_nil r)
  · intro r hr
    exact absurd hr (List.not_mem_nil r)
  · intro r hr
    exact absurd hr (List.not_mem_nil r)
  · intro r hr
    exact absurd hr (List.not_mem_nil r)
  · intro r hr
    exact absurd hr (List.not_mem_nil r)

/-- Every event preserves the pool invariant. -/
theorem step_wf (s : PoolState) (h : PoolWf s) (e : PoolEvent) :
    PoolWf (step s e) := by
  cases e with
  | submit p l c d => exact (submit_spec s h p l c d).1
  | message w rid ok => exact (onMessage_spec s h w rid ok).1
  | crash w => exact (onCrash_spec s h w).1
  | timeoutFire rid => exact (onTimeout_spec s h rid).1
  | sweep => exact (cleanup_spec s h).1
  | setCapacity n => exact (setMaxPoolSize_spec s h n).1
  | terminate => exact terminatePool_wf s h
  | tick dt => exact tick_wf s h dt

/-- Every reachable state satisfies the invariant. -/
theorem reachable_wf : ∀ {s : PoolState}, Reachable s → PoolWf s := by
  intro s h
  induction h with
  | init m t0 => exact mkPool_wf m t0
  | step e hr ih => exact step_wf _ ih e

/-- When the worker count is within the capacity, any event whose
capacity change (if any) does not shrink below the current count keeps
it within the capacity. -/
theorem step_cap (s : PoolState) (h : PoolWf s)
    (hcap : s.workers.length ≤ s.maxPoolSize) (e : PoolEvent)
    (hns : ∀ n, e = PoolEvent.setCapacity n → s.workers.length ≤ (max 1 n).toNat) :
    (step s e).workers.length ≤ (step s e).maxPoolSize := by
  cases e with
  | submit p l c d =>
    obtain ⟨_, _, hm, _, _, _, hl⟩ := submit_spec s h p l c d
    show (submit s p l c d).workers.length ≤ (submit s p l c d).maxPoolSize
    rw [hm]
    omega
  | message w rid ok =>
    obtain ⟨_, hm, _, _, hl⟩ := onMessage_spec s h w rid ok
    show (onMessage s w rid ok).workers.length ≤ (onMessage s w rid ok).maxPoolSize
    rw [hm]
    omega
  | crash w =>
    obtain ⟨_, hm, _, _, hl⟩ := onCrash_spec s h w
    show (onCrash s w).workers.length ≤ (onCrash s w).maxPoolSize
    rw [hm]
    omega
  | timeoutFire rid =>
    obtain ⟨_, hm, _, _, hl⟩ := onTimeout_spec s h rid
    show (onTimeout s rid).workers.length ≤ (onTimeout s rid).maxPoolSize
    rw [hm]
    omega
  | sweep =>
    obtain ⟨_, hm, _, _, _, _, _, _, hl⟩ := cleanup_spec s h
    show (cleanupIdleWorkers s).workers.length ≤ (cleanupIdleWorkers s).maxPoolSize
    rw [hm]
    omega
  | setCapacity n =>
    obtain ⟨_, hm, _, _, _, _, _, _, _, _, _, hl⟩ := setMaxPoolSize_spec s h n
    have hn := hns n rfl
    show (setMaxPoolSize s n).workers.length ≤ (setMaxPoolSize s n).maxPoolSize
    rw [hm]
    omega
  | terminate =>
    show ([] : List ℕ).length ≤ (terminatePool s).maxPoolSize
    exact Nat.zero_le _
  | tick dt => exact hcap

/-- Along a trace that never shrinks the capacity below the worker count
in force, the invariant holds and the worker count stays within the
capacity. -/
theorem reachableNoShrink_cap : ∀ {s : PoolState}, ReachableNoShrink s →
    PoolWf s ∧ s.workers.length ≤ s.maxPoolSize := by
  intro s h
  induction h with
  | init m t0 =>
    refine ⟨mkPool_wf m t0, ?_⟩
    rw [mkPool_eq]
    show ([0] : List ℕ).length ≤ (max 1 m).toNat
    simp only [List.length_singleton]
    omega
  | step e hcond hr ih => exact ⟨step_wf _ ih.1 e, step_cap _ ih.1 ih.2 e hcond⟩

/-- The active set injects into the worker list, so the active count is
bounded by the worker count. -/
theorem active_le_total {s : PoolState} (h : PoolWf s) :
    s.activeWorkers.length ≤ s.workers.length := by
  refine List.Subperm.length_le (List.subperm_of_subset h.active_nodup ?_)
  intro a ha
  exact h.active_sub a ha

/-- The sample state with an in-flight and a queued request satisfies
the invariant. -/
theorem sampleTermState_wf : PoolWf sampleTermState := by
  constructor <;> decide

/-- The expired-idle-worker state satisfies the invariant. -/
theorem c9State_wf : PoolWf c9State := by
  constructor <;> decide

/-- C1 (corrected): `terminate()` rejects every queued request with the
pool-shutdown error, destroys every worker, clears all scheduler state
and cancels the pending timers — but the pending (in-flight) requests
are dropped without their futures being settled: no rejection (or
resolution) is ever logged for a request that was pending at the moment
of the call. -/
theorem c1_terminate (s : PoolState) (h : PoolWf s) :
    (terminatePool s).terminated = true ∧
    (terminatePool s).workers = [] ∧
    (terminatePool s).activeWorkers = [] ∧
    (terminatePool s).queue = [] ∧
    (terminatePool s).pending = [] ∧
    (terminatePool s).workerReq = [] ∧
    (terminatePool s).lastUsed = [] ∧
    (∀ r ∈ s.queue, (r.id, SettleKind.poolTerminated) ∈ (terminatePool s).settled) ∧
    (∀ rid ∈ s.pending.map Prod.fst, ∀ k, (rid, k) ∉ (terminatePool s).settled) := by
  refine ⟨rfl, rfl, rfl, rfl, rfl, rfl, rfl, ?_, ?_⟩
  · intro r hr
    show (r.id, SettleKind.poolTerminated) ∈ s.settled ++
      s.queue.map (fun x => (x.id, SettleKind.poolTerminated))
    exact List.mem_append.2 (Or.inr (List.mem_map_of_mem _ hr))
  · intro rid hrid k hmem
    replace hmem : (rid, k) ∈ s.settled ++
      s.queue.map (fun x => (x.id, SettleKind.poolTerminated)) := hmem
    rcases List.mem_append.1 hmem with h1 | h1
    · exact h.ps_disj rid hrid (List.mem_map_of_mem Prod.fst h1)
    · rcases List.mem_map.1 h1 with ⟨r, hr, hre⟩
      refine h.pq_disj rid hrid ?_
      have : r.id = rid := congrArg Prod.fst hre
      rw [← this]
      exact List.mem_map_of_mem QueuedReq.id hr

/-- Witness for C1 at the sample state: the queued request 7 is
rejected with the pool-shutdown error, while the pending request 5 gets
no settlement at all. -/
theorem c1_terminate_witness :
    (terminatePool sampleTermState).queue = [] ∧
    (7, SettleKind.poolTerminated) ∈ (terminatePool sampleTermState).settled ∧
    (5, SettleKind.poolTerminated) ∉ (terminatePool sampleTermState).settled := by
  have h := c1_terminate sampleTermState sampleTermState_wf
  refine ⟨h.2.2.2.1, ?_, ?_⟩
  · exact h.2.2.2.2.2.2.2.1 ⟨7, 100, 1, "sin", "float32"⟩ (by decide)
  · exact h.2.2.2.2.2.2.2.2 5 (by decide) SettleKind.poolTerminated

/-- Counterexample to C1 as stated: in the reachable state `c1Pre` the
request with id 1 is pending (in flight), yet `terminate()` settles
nothing — its settle log stays empty, so the pending future is dropped
silently rather than rejected. -/
theorem c1_counterexample :
    Reachable c1Pre ∧
    c1Pre.pending.map Prod.fst = [1] ∧
    (step c1Pre PoolEvent.terminate).settled = [] ∧
    (step c1Pre PoolEvent.terminate).pending = [] :=
  ⟨Reachable.step (PoolEvent.submit 100 1 "sin" "float32") (Reachable.init 4 0),
   by decide, by decide, by decide⟩

/-- C3 (corrected): in every reachable state the unit counts add up
(`activeUnits + idleUnits = totalUnits`) and the floor
`minFloor ≤ totalUnits` holds outside shutdown; the capacity bound
`totalUnits ≤ maxCapacity` holds along every trace whose capacity
changes never shrink below the worker count in force at the call — but
not along arbitrary traces (see the counterexample). -/
theorem c3_pool_invariants (s : PoolState) :
    (Reachable s →
      s.activeUnits + s.idleUnits = s.totalUnits ∧
      (s.terminated = false → s.minWorkers ≤ s.totalUnits)) ∧
    (ReachableNoShrink s → s.totalUnits ≤ s.maxPoolSize) := by
  constructor
  · intro hr
    have h := reachable_wf hr
    have hle := active_le_total h
    refine ⟨?_, h.floor⟩
    show s.activeWorkers.length + (s.workers.length - s.activeWorkers.length) =
      s.workers.length
    omega
  · intro hr
    exact (reachableNoShrink_cap hr).2

/-- Witness for C3 at a fresh pool of capacity 2. -/
theorem c3_pool_invariants_witness :
    (mkPool 2 0).activeUnits + (mkPool 2 0).idleUnits = (mkPool 2 0).totalUnits ∧
    (mkPool 2 0).totalUnits ≤ (mkPool 2 0).maxPoolSize :=
  ⟨((c3_pool_invariants (mkPool 2 0)).1 (Reachable.init 2 0)).1,
   (c3_pool_invariants (mkPool 2 0)).2 (ReachableNoShrink.init 2 0)⟩

/-- Counterexample to the unconditional capacity bound of C3: shrinking
the capacity to 1 while both workers are busy removes nothing, leaving a
reachable, non-terminated state with `totalUnits = 2 > maxCapacity = 1`. -/
theorem c3_counterexample :
    Reachable c3Over ∧ c3Over.terminated = false ∧
    c3Over.maxPoolSize < c3Over.totalUnits :=
  ⟨Reachable.step (PoolEvent.setCapacity 1)
     (Reachable.step (PoolEvent.submit 100 1 "sin" "float32")
       (Reachable.step (PoolEvent.submit 100 1 "linear" "float32")
         (Reachable.init 4 0))),
   by decide, by decide⟩

/-- C8: `setCapacity(n)` sets the capacity to `max(1, ⌊n⌋)`, never
terminates an active unit (every active worker survives, and every
removed worker was idle), leaves the queue, the pending map, the settle
log and the active set unchanged, and when shrinking removes idle units
until the count is within the new capacity or only active units remain. -/
theorem c8_set_capacity (s : PoolState) (h : PoolWf s) (n : ℤ) :
    (setMaxPoolSize s n).maxPoolSize = (max 1 n).toNat ∧
    (setMaxPoolSize s n).activeWorkers = s.activeWorkers ∧
    (setMaxPoolSize s n).queue = s.queue ∧
    (setMaxPoolSize s n).pending = s.pending ∧
    (setMaxPoolSize s n).settled = s.settled ∧
    (∀ x ∈ (setMaxPoolSize s n).workers, x ∈ s.workers) ∧
    (∀ x ∈ s.workers, x ∉ (setMaxPoolSize s n).workers → x ∉ s.activeWorkers) ∧
    (∀ x ∈ s.activeWorkers, x ∈ (setMaxPoolSize s n).workers) ∧
    ((setMaxPoolSize s n).workers.length ≤ (max 1 n).toNat ∨
      ∀ x ∈ (setMaxPoolSize s n).workers, x ∈ s.activeWorkers) := by
  obtain ⟨hwf, hmax, hqu, hpe, hse, hact, hco, hte, hsub, hrem, hstop, hle⟩ :=
    setMaxPoolSize_spec s h n
  refine ⟨hmax, hact, hqu, hpe, hse, hsub, hrem, ?_, hstop⟩
  intro x hx
  by_contra hmem
  exact hrem x (h.active_sub x hx) hmem hx

/-- Witness for C8 at the sample state (one active worker, capacity cut
to 2): the capacity updates and the active worker survives. -/
theorem c8_set_capacity_witness :
    (setMaxPoolSize sampleTermState 2).maxPoolSize = (max 1 (2 : ℤ)).toNat ∧
    (setMaxPoolSize sampleTermState 2).pending = sampleTermState.pending ∧
    0 ∈ (setMaxPoolSize sampleTermState 2).workers := by
  have h := c8_set_capacity sampleTermState sampleTermState_wf 2
  exact ⟨h.1, h.2.2.2.1, h.2.2.2.2.2.2.2.1 0 (by decide)⟩

/-- C9: on a sweep, a worker is removed only if it was idle and past the
30-second idle threshold; every active worker survives; the floor is
preserved; at or below the floor the sweep removes nothing; and when the
sweep ends strictly above the floor, no expired idle worker remains. -/
theorem c9_idle_sweep (s : PoolState) (h : PoolWf s) :
    (∀ x ∈ s.workers, x ∉ (cleanupIdleWorkers s).workers →
      x ∉ s.activeWorkers ∧ isExpired s x = true) ∧
    (∀ x ∈ s.activeWorkers, x ∈ (cleanupIdleWorkers s).workers) ∧
    (s.minWorkers ≤ s.workers.length →
      s.minWorkers ≤ (cleanupIdleWorkers s).workers.length) ∧
    (s.workers.length ≤ s.minWorkers → cleanupIdleWorkers s = s) ∧
    (s.minWorkers < (cleanupIdleWorkers s).workers.length →
      ∀ x ∈ (cleanupIdleWorkers s).workers,
        x ∈ s.activeWorkers ∨ isExpired s x = false) := by
  have hrm : ∀ x ∈ s.workers, x ∉ (cleanupIdleWorkers s).workers →
      x ∉ s.activeWorkers ∧ isExpired s x = true := by
    intro x hx hout
    have hc := sweepRemove_removed_mem (sweepCollect s) s x hx hout
    have hsp := sweepCollect_spec s x hc
    exact ⟨hsp.2.1, hsp.2.2⟩
  refine ⟨hrm, ?_, ?_, ?_, ?_⟩
  · intro x hx
    by_contra hout
    exact (hrm x (h.active_sub x hx) hout).1 hx
  · intro hfl
    exact sweepRemove_floor (sweepCollect s) s h.workers_nodup hfl
  · intro hle
    show sweepRemove s (sweepCollect s) = s
    unfold sweepCollect
    rw [if_pos hle]
    rfl
  · intro hgt x hxr
    replace hgt : s.minWorkers < (sweepRemove s (sweepCollect s)).workers.length :=
      hgt
    by_cases hact : x ∈ s.activeWorkers
    · exact Or.inl hact
    · right
      by_contra hexp
      rw [Bool.not_eq_false] at hexp
      have hxw : x ∈ s.workers := sweepRemove_workers_sub (sweepCollect s) s x hxr
      have hlt : ¬ s.workers.length ≤ s.minWorkers := by
        have hll := sweepRemove_len_le (sweepCollect s) s
        omega
      have hcol := sweepCollect_mem s hlt hxw hact hexp
      exact sweepRemove_all (sweepCollect s) s hgt x hcol hxr

/-- Witness for C9 at a pool with an expired idle worker 0 and an active
worker 1: the active worker survives and the floor is kept. -/
theorem c9_idle_sweep_witness :
    1 ∈ (cleanupIdleWorkers c9State).workers ∧
    c9State.minWorkers ≤ (cleanupIdleWorkers c9State).workers.length := by
  have h := c9_idle_sweep c9State c9State_wf
  exact ⟨h.2.1 1 (by decide), h.2.2.1 (by decide)⟩

/-- C10: in every reachable state the settle log holds at most one entry
per request id — every settling path (success message, error message,
timeout firing, worker crash) first checks the pending map and removes
the entry before resolving or rejecting, so no future is settled
twice. -/
theorem c10_settle_once (s : PoolState) (h : Reachable s) :
    (s.settled.map Prod.fst).Nodup :=
  (reachable_wf h).settled_nodup

/-- Witness for C10 after a submit and its success message: the one
settled request appears once in the log. -/
theorem c10_settle_once_witness :
    ((step c1Pre (PoolEvent.message 0 1 true)).settled.map Prod.fst).Nodup :=
  c10_settle_once _
    (Reachable.step (PoolEvent.message 0 1 true)
      (Reachable.step (PoolEvent.submit 100 1 "sin" "float32")
        (Reachable.init 4 0)))

end UplotModel
